import Mathlib

/-
Verification development for the polygon proximity linker and the
wall-overlap flow computation (PolygonProximityLinker.cpp / wallOverlap.cpp).

The C++ sources are embedded shallowly:
  * machine integers (int64_t) are modelled as unbounded Int; none of the
    quantities handled by the verified properties approach 2^63, and the
    source itself assumes no overflow;
  * the doubly linked list polygons (ListPolygon / ListPolyIt) are modelled
    as lists of nodes with stable numeric identities; std::list insertion
    before an iterator becomes list insertion before the node with the
    given identity, which preserves every existing identity exactly as the
    C++ iterators are preserved;
  * unordered_set / unordered_multimap are modelled as lists kept in
    insertion order (set insertion deduplicates through the same symmetric
    link equality the source uses); iteration order of the model is the
    insertion order, a fixed admissible order of the unordered containers;
  * float / double arithmetic is modelled as exact real (rational)
    arithmetic followed by the same truncations the source performs, and
    IEEE special values (NaN and the infinities) are modelled explicitly
    where the source can produce them (the flow quotient).
-/

namespace CuraModel

/-- Two dimensional integer point, as the Point of intpoint.h
(micrometre fixed point, 64 bit components). -/
structure Pt where
  x : Int
  y : Int
deriving DecidableEq, Repr

instance : Add Pt := ⟨fun u v => ⟨u.x + v.x, u.y + v.y⟩⟩
instance : Sub Pt := ⟨fun u v => ⟨u.x - v.x, u.y - v.y⟩⟩

/-- Modelled from the spec: dot product of intpoint.h (the header is not
part of the provided sources); exact 64 bit integer dot product. -/
def dot (u v : Pt) : Int := u.x * v.x + u.y * v.y

/-- Modelled from the spec: squared length of intpoint.h; exact. -/
def vSize2 (u : Pt) : Int := dot u u

/-- Fuel driven digit recursion for the integer square root; the fuel only
bounds the recursion depth, and any fuel of at least the bit length of the
argument yields the rounded down square root (see isqrt_eq_sqrt). -/
def isqrtF : Nat → Nat → Nat
  | 0, _ => 0
  | fuel + 1, n =>
    if n < 2 then n
    else
      let r := 2 * isqrtF fuel (n / 4)
      if (r + 1) * (r + 1) ≤ n then r + 1 else r

/-- Kernel computable integer square root, rounding down. -/
def isqrt (n : Nat) : Nat := isqrtF n n

/-- Integer square root, rounding down: the value the source obtains by
applying the C library sqrt to an exact int64 and truncating. -/
def intSqrt (n : Int) : Int := (isqrt n.toNat : Int)

/-- Modelled from the spec: vSize of intpoint.h, the integer euclidean
length of a vector. -/
def vSize (u : Pt) : Int := intSqrt (vSize2 u)

/-- Modelled from the spec: normal of intpoint.h, the vector scaled to a
given integer length (integer division truncating toward zero, as C++).
Only meaningful for a nonzero vector; the degenerate guard mirrors the
upstream implementation and is never reached by the verified code paths. -/
def normalTo (u : Pt) (L : Int) : Pt :=
  let s := vSize u
  if s < 1 then ⟨L, 0⟩
  else ⟨Int.tdiv (u.x * L) s, Int.tdiv (u.y * L) s⟩

/-- Modelled from the spec: getClosestOnLineSegment of linearAlg2D.h.
Returns the closest point on the segment from p0 to p1, clamped to the
endpoints, ties toward p0; the interior point is the integer projection. -/
def getClosestOnLineSegment (fromP p0 p1 : Pt) : Pt :=
  let direction := p1 - p0
  let toFrom := fromP - p0
  let projected := dot toFrom direction
  let xP1 := vSize2 direction
  if xP1 = 0 then p0
  else if projected ≤ 0 then p0
  else if projected ≥ xP1 then p1
  else p0 + ⟨Int.tdiv (projected * direction.x) xP1, Int.tdiv (projected * direction.y) xP1⟩

/-- Modelled from the spec: shorterThen of intpoint.h, whether a vector is
shorter than the given length. -/
def shorterThen (u : Pt) (len : Int) : Bool := vSize2 u < len * len

/-- One node of a list polygon: a stable identity plus a point.  Node
identities are never reused, mirroring stable std::list iterators. -/
structure Node where
  nid : Nat
  pt : Pt
deriving DecidableEq, Repr

/-- A list polygon (ListPolygon): the ring nodes in list order. -/
abbrev Ring := List Node

/-- ListPolyIt: a stable handle to one node of one ring, addressed by ring
index and node identity. -/
structure LPI where
  poly : Nat
  node : Nat
deriving DecidableEq, Repr

/-- ProximityPointLink: the two endpoints and the recorded distance.  As in
the source, equality of links for set membership ignores the distance and
is symmetric in the endpoints (see linkEqB). -/
structure Link where
  a : LPI
  b : LPI
  dist : Int
deriving DecidableEq, Repr

/-- The symmetric endpoint equality of ProximityPointLink::operator==
(the distance field does not participate). -/
def linkEqB (l m : Link) : Bool :=
  (l.a == m.a && l.b == m.b) || (l.a == m.b && l.b == m.a)

/-- The whole linker state: the list polygons, the fresh identity counter,
the primary link set, the endings link set and the point to link multimap
(in insertion order). -/
structure LState where
  rings : List Ring
  fresh : Nat
  links : List Link
  endings : List Link
  p2l : List (Pt × Link)
deriving Repr

def ringOf (st : LState) (i : Nat) : Ring := st.rings.getD i []

/-- The point stored at a handle (the dereference ListPolyIt::p). -/
def nodePt (st : LState) (it : LPI) : Pt :=
  (((ringOf st it.poly).find? (fun n => n.nid == it.node)).map Node.pt).getD ⟨0, 0⟩

def posOf (r : Ring) (id : Nat) : Option Nat := r.findIdx? (fun n => n.nid == id)

/-- The identity following the first occurrence of an identity inside a
ring (helper of nxt); the first argument is the identity wrapped to when
the occurrence is the final node. -/
def nxtAux (h : Nat) : Ring → Nat → Option Nat
  | [], _ => none
  | [m], z => if m.nid == z then some h else none
  | m :: m2 :: rest, z => if m.nid == z then some m2.nid else nxtAux h (m2 :: rest) z

/-- The identity cyclically following an identity in a ring, none when the
identity does not occur. -/
def nxt (r : Ring) (z : Nat) : Option Nat :=
  match r with
  | [] => none
  | m :: _ => nxtAux m.nid r z

/-- The identity preceding the first occurrence of an identity (helper of
prv); the first argument is the identity of the preceding node so far. -/
def prvAux (p : Nat) : Ring → Nat → Option Nat
  | [], _ => none
  | m :: rest, z => if m.nid == z then some p else prvAux m.nid rest z

/-- The identity cyclically preceding an identity in a ring, none when the
identity does not occur; the predecessor of the first node is the last. -/
def prv (r : Ring) (z : Nat) : Option Nat :=
  match (r.getLast?).map Node.nid with
  | none => none
  | some lastId => prvAux lastId r z

/-- ListPolyIt::next: the next node in the ring, wrapping from the last to
the first (the handle itself when it is stale, which the verified code
paths never are). -/
def nextIt (st : LState) (it : LPI) : LPI :=
  match nxt (ringOf st it.poly) it.node with
  | none => it
  | some y => ⟨it.poly, y⟩

/-- ListPolyIt::prev: the previous node in the ring, wrapping from the
first to the last. -/
def prevIt (st : LState) (it : LPI) : LPI :=
  match prv (ringOf st it.poly) it.node with
  | none => it
  | some y => ⟨it.poly, y⟩

/-- Insert a node before the node with the given identity (std::list
insert before an iterator).  If the identity is absent the ring is
unchanged; the verified code paths only insert before live identities. -/
def ringInsertBefore (r : Ring) (beforeId : Nat) (n : Node) : Ring :=
  match r with
  | [] => []
  | m :: rest =>
    if m.nid == beforeId then n :: m :: rest
    else m :: ringInsertBefore rest beforeId n

/-- Insert a fresh node with the given point before the handle, returning
the new state and the handle of the new node. -/
def insertNode (st : LState) (ringIdx : Nat) (beforeId : Nat) (p : Pt) : LState × LPI :=
  let nid := st.fresh
  let newRings := st.rings.set ringIdx (ringInsertBefore (st.rings.getD ringIdx []) beforeId ⟨nid, p⟩)
  ({ st with rings := newRings, fresh := nid + 1 }, ⟨ringIdx, nid⟩)

/-- PolygonProximityLinker::addToPoint2LinkMap: one multimap entry, always
appended. -/
def addToPoint2LinkMap (st : LState) (p : Pt) (l : Link) : LState :=
  { st with p2l := st.p2l ++ [(p, l)] }

/-- PolygonProximityLinker::addProximityLink: emplace into the primary
link set (symmetric endpoint equality deduplicates) and unconditionally
register the stored element under both of its endpoint points. -/
def addProximityLink (st : LState) (fromIt toIt : LPI) (d : Int) : LState :=
  let link : Link := ⟨fromIt, toIt, d⟩
  match st.links.find? (fun m => linkEqB m link) with
  | some stored =>
    addToPoint2LinkMap (addToPoint2LinkMap st (nodePt st stored.a) stored) (nodePt st stored.b) stored
  | none =>
    let st1 := { st with links := st.links ++ [link] }
    addToPoint2LinkMap (addToPoint2LinkMap st1 (nodePt st1 link.a) link) (nodePt st1 link.b) link

/-- PolygonProximityLinker::addProximityLink_endings: the same, on the
separate endings link set. -/
def addProximityLinkEndings (st : LState) (fromIt toIt : LPI) (d : Int) : LState :=
  let link : Link := ⟨fromIt, toIt, d⟩
  match st.endings.find? (fun m => linkEqB m link) with
  | some stored =>
    addToPoint2LinkMap (addToPoint2LinkMap st (nodePt st stored.a) stored) (nodePt st stored.b) stored
  | none =>
    let st1 := { st with endings := st.endings ++ [link] }
    addToPoint2LinkMap (addToPoint2LinkMap st1 (nodePt st1 link.a) link) (nodePt st1 link.b) link

/-- Key lookup in the point to link multimap (unordered_multimap::find,
tested against end): whether any entry has the given key. -/
def p2lHasKey (st : LState) (p : Pt) : Bool := st.p2l.any (fun e => e.1 == p)

/-- All multimap entries under a key, in stored order
(PolygonProximityLinker::getLinks, an equal_range).  Modelled from the
spec, the member implementation not being among the provided sources. -/
def linksAtPt (st : LState) (p : Pt) : List Link :=
  (st.p2l.filter (fun e => e.1 == p)).map Prod.snd

/-- PolygonProximityLinker::isLinked on a point.  Modelled from the spec,
the member implementation not being among the provided sources. -/
def isLinkedPt (st : LState) (p : Pt) : Bool := p2lHasKey st p

/-- PolygonProximityLinker::getLink on two handles: the link with that
exact endpoint pair, from either link set.  Modelled from the spec, the
member implementation not being among the provided sources. -/
def getLinkAB (st : LState) (x y : LPI) : Option Link :=
  (st.links ++ st.endings).find? (fun l => (l.a == x && l.b == y) || (l.a == y && l.b == x))

/-- The node identities of a ring, in list order. -/
def ringIds (r : Ring) : List Nat := r.map Node.nid

/-- The point of the node with a given identity inside one ring. -/
def ptOfId (r : Ring) (id : Nat) : Pt :=
  ((r.find? (fun n => n.nid == id)).map Node.pt).getD ⟨0, 0⟩

/-- The skip rule of PolygonProximityLinker::findProximatePoints (lines
96 to 105): when scanning inside one and the same ring, ignore the edge
when it is incident on the scanned vertex or is the ring edge immediately
before or after it. -/
def scanSkip (st : LState) (fromIt : LPI) (j lastId itId : Nat) : Bool :=
  fromIt.poly == j &&
    (fromIt.node == lastId || fromIt.node == itId
      || (prevIt st fromIt).node == itId || (nextIt st fromIt).node == lastId)

/-- The winding rejection of findProximatePoints (lines 110 to 114,
second disjunct): same ring, and both dot products positive. -/
def scanWindingReject (st : LState) (fromIt : LPI) (j : Nat) (lastP curP : Pt) : Bool :=
  let fromP := nodePt st fromIt
  fromIt.poly == j
    && dot (nodePt st (nextIt st fromIt) - fromP) (curP - lastP) > 0
    && dot (fromP - nodePt st (prevIt st fromIt)) (curP - lastP) > 0

/-- The loop body of findProximatePoints(ListPolyIt, idx, start),
lines 91 to 137: walk the remaining node identities of the target ring,
pairing each with the previous one as a segment, and link or insert.
The identities still to visit are fixed when the loop starts because the
source only ever inserts before the current iterator. -/
def scanSegs (W : Int) (fromIt : LPI) (j : Nat) : LState → Nat → List Nat → LState
  | st, _, [] => st
  | st, lastId, itId :: rest =>
    let r := ringOf st j
    let lastP := ptOfId r lastId
    let curP := ptOfId r itId
    let fromP := nodePt st fromIt
    if scanSkip st fromIt j lastId itId then
      scanSegs W fromIt j st itId rest
    else
      let closest := getClosestOnLineSegment fromP lastP curP
      let dist2 := vSize2 (closest - fromP)
      if dist2 > W * W || scanWindingReject st fromIt j lastP curP then
        scanSegs W fromIt j st itId rest
      else
        let d := intSqrt dist2
        if shorterThen (closest - lastP) 10 then
          scanSegs W fromIt j (addProximityLink st fromIt ⟨j, lastId⟩ d) itId rest
        else if shorterThen (closest - curP) 10 then
          scanSegs W fromIt j (addProximityLink st fromIt ⟨j, itId⟩ d) itId rest
        else
          let ins := insertNode st j itId closest
          scanSegs W fromIt j (addProximityLink ins.1 fromIt ins.2 d) itId rest

/-- The identities from the position of a given identity (inclusive) to
the end of the ring. -/
def idsFrom (r : Ring) (id : Nat) : List Nat :=
  match posOf r id with
  | none => []
  | some i => (ringIds r).drop i

/-- findProximatePoints(ListPolyIt, idx, start): scan the target ring from
the given start (the whole ring for the cross polygon overload of lines
81 to 84, the suffix from the vertex itself for the same ring call of
line 69), with last initialised to the final node of the ring. -/
def scanFrom (W : Int) (st : LState) (fromIt : LPI) (j : Nat) (fromSelf : Bool) : LState :=
  let r := ringOf st j
  match (r.getLast?).map Node.nid with
  | none => st
  | some lastId =>
    let toVisit := if fromSelf then idsFrom r fromIt.node else ringIds r
    scanSegs W fromIt j st lastId toVisit

/-- The vertex loop of findProximatePoints() for a pair of distinct rings
(the target ring j is mutated, the scanned ring i is not, so the vertex
list is fixed up front). -/
def scanPolyPairCross (W : Int) (i j : Nat) (st : LState) : LState :=
  (ringIds (ringOf st i)).foldl (fun s vid => scanFrom W s ⟨i, vid⟩ j false) st

/-- The node identity following a given one in plain list order, none at
the end of the list (the ++it of the outer vertex loop). -/
def nextInList (r : Ring) (id : Nat) : Option Nat :=
  match posOf r id with
  | none => none
  | some i => (r.get? (i + 1)).map Node.nid

/-- The vertex loop of findProximatePoints() when a ring is compared with
itself: the ring is mutated while it is being iterated, so the cursor is
a live node identity; the fuel bounds the number of vertices visited and
is benign because every visit keeps or grows the ring. -/
def scanPolySelf (W : Int) (i : Nat) : LState → Option Nat → Nat → LState
  | st, _, 0 => st
  | st, none, _ + 1 => st
  | st, some vid, fuel + 1 =>
    let st1 := scanFrom W st ⟨i, vid⟩ i true
    scanPolySelf W i st1 (nextInList (ringOf st1 i) vid) fuel

/-- PolygonProximityLinker::findProximatePoints() (lines 50 to 79): every
ring against every ring of smaller or equal index, vertex by vertex. -/
def findProximatePointsAll (W : Int) (st : LState) (fuel : Nat) : LState :=
  (List.range st.rings.length).foldl (fun s i =>
    (List.range (i + 1)).foldl (fun s2 j =>
      if j == i then
        scanPolySelf W i s2 ((((ringOf s2 i).head?).map Node.nid)) fuel
      else
        scanPolyPairCross W i j s2) s) st

/-- Floor of the positive real root in the general branch of
proximityEndingDistance, computed exactly over the integers:
the real value is overlap * (1 / (2 * sqrt(2 / (c + 1) - 1))) with
c = D / sqrt(A * B), whose square is
overlap^2 * (A * B + D^2 + 2 * D * sqrt(A * B)) / (4 * (A * B - D^2)). -/
def pedGeneral (overlap D A B : Nat) : Nat :=
  let S := A * B
  let num := overlap ^ 2 * (S + D * D) + isqrt (4 * overlap ^ 4 * D * D * S)
  let den := 4 * (S - D * D)
  isqrt (num / den)

/-- PolygonProximityLinker::proximityEndingDistance (lines 250 to 273).
The double precision computation of the source is modelled as exact real
arithmetic with the final conversion to int64 truncating toward zero:
the cosine tests become exact integer sign and cross multiplication
tests, and the general branch is the exact floor of the real expression.
The nonfinite cosine of the source (a zero length segment) is the
explicit zero length test here. -/
def proximityEndingDistance (W : Int) (a1 a2 b1 b2 : Pt) (a1b1Dist : Int) : Int :=
  let overlap := W - a1b1Dist
  let a := a2 - a1
  let b := b2 - b1
  let D := dot a b
  let A := vSize2 a
  let B := vSize2 b
  if A = 0 || B = 0 then -1
  else if D ≤ 0 then -1
  else if D * D * 100000000 > 99980001 * A * B then min (vSize b) (vSize a)
  else if overlap < 0 then -(pedGeneral (-overlap).toNat D.toNat A.toNat B.toNat : Int)
  else (pedGeneral overlap.toNat D.toNat A.toNat B.toNat : Int)

/-- The body of PolygonProximityLinker::addProximityEnding below the
negative distance early return (lines 212 to 246), with the computed
ending distance as a parameter: the clamping branch, which falls through
into the general branch exactly as the source does, and the general or
zero distance insertion. -/
def addProximityEndingCore (W : Int) (st : LState) (link : Link)
    (a2It b2It aAfter bAfter : LPI) (dist0 : Int) : LState :=
  let a1 := nodePt st link.a
  let b1 := nodePt st link.b
  let a := nodePt st a2It - a1
  let b := nodePt st b2It - b1
  let clamped : Int × LState :=
    if dist0 * dist0 > min (vSize2 a) (vSize2 b) then
      let d1 := intSqrt (min (vSize2 a) (vSize2 b))
      if vSize2 a < vSize2 b then
        let ins := insertNode st link.b.poly bAfter.node (b1 + normalTo b d1)
        (d1, addProximityLinkEndings ins.1 a2It ins.2 W)
      else if vSize2 b < vSize2 a then
        let ins := insertNode st link.a.poly aAfter.node (a1 + normalTo a d1)
        (d1, addProximityLinkEndings ins.1 ins.2 b2It W)
      else
        (d1, addProximityLinkEndings st a2It b2It W)
    else (dist0, st)
  let dist := clamped.1
  let st2 := clamped.2
  if dist > 0 then
    let insA := insertNode st2 link.a.poly aAfter.node (a1 + normalTo a dist)
    let insB := insertNode insA.1 link.b.poly bAfter.node (b1 + normalTo b dist)
    addProximityLinkEndings insB.1 insA.2 insB.2 W
  else if dist = 0 then
    addProximityLinkEndings st2 link.a link.b W
  else st2

/-- PolygonProximityLinker::addProximityEnding (lines 198 to 248): the
point presence guard, the ending distance computation with its negative
early return, then the insertion body. -/
def addProximityEnding (W : Int) (st : LState) (link : Link)
    (a2It b2It aAfter bAfter : LPI) : LState :=
  if !p2lHasKey st (nodePt st a2It) || !p2lHasKey st (nodePt st b2It) then
    let dist0 := proximityEndingDistance W (nodePt st link.a) (nodePt st a2It)
      (nodePt st link.b) (nodePt st b2It) link.dist
    if dist0 < 0 then st
    else addProximityEndingCore W st link a2It b2It aAfter bAfter dist0
  else st

/-- PolygonProximityLinker::addProximityEndings (lines 173 to 195): for
every primary link not already at the proximity distance, try an ending
in both directions.  The primary link set is not modified by the body, so
its iteration sequence is fixed up front; the ring handles are evaluated
against the current state exactly as the source evaluates them. -/
def addProximityEndings (W : Int) (st : LState) : LState :=
  st.links.foldl (fun s link =>
    if link.dist == W then s
    else
      let s1 :=
        let a2 := nextIt s link.a
        let b2 := prevIt s link.b
        addProximityEnding W s link a2 b2 a2 link.b
      let a2p := prevIt s1 link.a
      let b2p := nextIt s1 link.b
      addProximityEnding W s1 link a2p b2p link.a b2p) st

/-- The initial linker state: each input polygon converted to a list ring
with globally fresh node identities (ListPolyIt::convertPolygonsToLists). -/
def initState (polys : List (List Pt)) : LState :=
  let rings := (polys.foldl (fun (acc : List Ring × Nat) poly =>
    let r := poly.foldl (fun (acc2 : Ring × Nat) p => (acc2.1 ++ [⟨acc2.2, p⟩], acc2.2 + 1)) ([], acc.2)
    (acc.1 ++ [r.1], r.2)) ([], 0))
  ⟨rings.1, rings.2, [], [], []⟩

/-- The PolygonProximityLinker constructor (lines 12 to 37): convert the
polygons to list rings, find the primary links, add the endings. -/
def buildLinker (polys : List (List Pt)) (W : Int) (fuel : Nat) : LState :=
  addProximityEndings W (findProximatePointsAll W (initState polys) fuel)

/-- The flow evaluator state: the linker plus the passed link pair set
(WallOverlapComputation::passed_links, an unordered_set of SymmetricPair
of ProximityPointLink; the SymmetricPair header is not among the provided
sources and is modelled from the spec as an unordered pair under the
symmetric link equality). -/
structure WState where
  linker : LState
  passed : List (Link × Link)
deriving Repr

/-- WallOverlapComputation::getIsPassed (lines 138 to 141): membership of
the unordered pair of the two links in the passed set, where both the
pair and the links themselves compare symmetrically. -/
def getIsPassed (w : WState) (la lb : Link) : Bool :=
  w.passed.any (fun pr =>
    (linkEqB pr.1 la && linkEqB pr.2 lb) || (linkEqB pr.1 lb && linkEqB pr.2 la))

/-- WallOverlapComputation::setIsPassed (lines 143 to 146): record the
unordered pair as passed. -/
def setIsPassed (w : WState) (la lb : Link) : WState :=
  { w with passed := w.passed ++ [(la, lb)] }

/-- WallOverlapComputation::getApproxOverlapArea on raw points and
distances (lines 125 to 136): sum the endpoints instead of averaging,
take the doubled average distance, divide once by four at the end;
integer division truncating toward zero as in C++. -/
def getApproxOverlapArea (W : Int) (fromA fromB : Pt) (fromDist : Int)
    (toA toB : Pt) (toDist : Int) : Int :=
  let fromMiddle := fromA + fromB
  let toMiddle := toA + toB
  let dist2 := vSize (fromMiddle - toMiddle)
  let averageDists2 := W * 2 - fromDist - toDist
  Int.tdiv (dist2 * averageDists2) 4

/-- WallOverlapComputation::getApproxOverlapArea on two links (lines 119
to 122): evaluate the point level overload at the link endpoints. -/
def getApproxOverlapAreaLinks (W : Int) (st : LState) (l1 l2 : Link) : Int :=
  getApproxOverlapArea W (nodePt st l1.a) (nodePt st l1.b) l1.dist
    (nodePt st l2.a) (nodePt st l2.b) l2.dist

/-- WallOverlapComputation::handlePotentialOverlap (lines 101 to 116):
look up the partner link; on the first encounter of the unordered pair
mark it passed and contribute zero, on a later encounter mark it again
and contribute the approximate overlap area. -/
def handlePotentialOverlap (W : Int) (w : WState) (linkA : Link)
    (fromIt toIt : LPI) : Int × WState :=
  match getLinkAB w.linker fromIt toIt with
  | none => (0, w)
  | some linkB =>
    if !getIsPassed w linkA linkB then
      (0, setIsPassed w linkA linkB)
    else
      (getApproxOverlapAreaLinks W w.linker linkA linkB, setIsPassed w linkA linkB)

/-- The overlap area accumulation loop of getFlow (lines 35 to 86): for
every link stored under the destination point, orient it, take the
predecessor on the own ring and the two candidate neighbours on the other
ring, and probe the three potential partner links. -/
def flowOverlap (W : Int) (w : WState) (fromP toP : Pt) : Int × WState :=
  (linksAtPt w.linker toP).foldl (fun (acc : Int × WState) toLink =>
    let s := acc.2
    let oriented :=
      if nodePt s.linker toLink.a == toP then (toLink.a, toLink.b)
      else (toLink.b, toLink.a)
    let toIt := oriented.1
    let toOtherIt := oriented.2
    let fromIt := prevIt s.linker toIt
    let toOtherNextIt := nextIt s.linker toOtherIt
    let r1 := handlePotentialOverlap W s toLink toOtherNextIt toIt
    let r2 := handlePotentialOverlap W r1.2 toLink toOtherIt fromIt
    let r3 := handlePotentialOverlap W r2.2 toLink toOtherNextIt fromIt
    (acc.1 + r1.1 + r2.1 + r3.1, r3.2)) (0, w)

/-- The result of the flow computation: a finite float value, modelled
exactly as a rational, or the IEEE NaN the source produces when it
divides zero by zero. -/
abbrev FlowRes := Option Rat

/-- WallOverlapComputation::getFlow (lines 21 to 99).  The final ratio of
the source is computed in float arithmetic; it is modelled as the exact
rational quotient, with the zero denominator handled by the IEEE rules
the source hits: 0/0 is NaN (none, it fails both clamp comparisons and is
returned), negative/0 is minus infinity (clamped to 0) and positive/0 is
plus infinity (clamped to 1). -/
def getFlow (W : Int) (w : WState) (fromP toP : Pt) : FlowRes × WState :=
  if !isLinkedPt w.linker fromP then (some 1, w)
  else if (linksAtPt w.linker toP).isEmpty then (some 1, w)
  else
    let r := flowOverlap W w fromP toP
    let overlapArea := r.1
    let w1 := r.2
    let normalArea := vSize (fromP - toP) * W
    if normalArea = 0 then
      if overlapArea = 0 then (none, w1)
      else if overlapArea > 0 then (some 0, w1)
      else (some 1, w1)
    else
      let q : Rat := ((normalArea - overlapArea : Int) : Rat) / ((normalArea : Int) : Rat)
      if q > 1 then (some 1, w1)
      else if q < 0 then (some 0, w1)
      else (some q, w1)

/-- The flow evaluator over a freshly built linker
(the WallOverlapComputation constructor, wallOverlap.cpp lines 13 to 18). -/
def buildWallOverlap (polys : List (List Pt)) (W : Int) (fuel : Nat) : WState :=
  ⟨buildLinker polys W fuel, []⟩

/-- Whether the ordered pair of points is a directed edge of some ring of
the final state (two cyclically consecutive nodes carrying these points):
the directed wall edges the driver feeds to getFlow after the constructor
writes the list polygons back. -/
def isRingEdge (st : LState) (fromP toP : Pt) : Bool :=
  st.rings.any (fun r =>
    (List.range r.length).any (fun i =>
      match r.get? i, r.get? ((i + 1) % r.length) with
      | some n1, some n2 => n1.pt == fromP && n2.pt == toP
      | _, _ => false))

/-! ### Concrete fixtures

States used to evaluate the verified functions at explicit inputs: either
full constructor runs on small polygon sets, or small hand written linker
states exercising one procedure. -/

/-- Two polygons forty units of proximity apart, the first carrying a
duplicated consecutive vertex at the origin, so that the written back
rings contain the degenerate directed edge from (0,0) to (0,0) while the
origin is linked to the second polygon. -/
def wsDup : WState :=
  buildWallOverlap
    [[⟨0, 0⟩, ⟨0, 0⟩, ⟨200, 0⟩, ⟨200, 200⟩, ⟨0, 200⟩],
     [⟨-30, 0⟩, ⟨-130, 0⟩, ⟨-130, -100⟩]] 40 100

/-- A narrow vee shaped pentagon whose two short arms meet the clamped
equal length ending fallback: the single primary self link joins the two
arm roots with exactly one vertex between them on the tip side. -/
def stVee : LState :=
  buildLinker [[⟨0, 0⟩, ⟨20, 1⟩, ⟨0, 2⟩, ⟨-100, 200⟩, ⟨-100, -100⟩]] 5 100

/-- A hand written linker state with one primary link between two parallel
horizontal edges and a second link occupying the point of the candidate
ending vertex on the a side only: the a side vertex point is indexed, the
b side vertex point is not. -/
def stEither : LState :=
  { rings :=
      [[⟨0, ⟨0, 0⟩⟩, ⟨1, ⟨100, 0⟩⟩],
       [⟨2, ⟨0, 30⟩⟩, ⟨3, ⟨100, 30⟩⟩],
       [⟨4, ⟨100, -40⟩⟩, ⟨5, ⟨200, -40⟩⟩, ⟨6, ⟨200, -140⟩⟩]]
    fresh := 7
    links := [⟨⟨0, 0⟩, ⟨1, 2⟩, 30⟩, ⟨⟨0, 1⟩, ⟨2, 4⟩, 40⟩]
    endings := []
    p2l :=
      [(⟨0, 0⟩, ⟨⟨0, 0⟩, ⟨1, 2⟩, 30⟩), (⟨0, 30⟩, ⟨⟨0, 0⟩, ⟨1, 2⟩, 30⟩),
       (⟨100, 0⟩, ⟨⟨0, 1⟩, ⟨2, 4⟩, 40⟩), (⟨100, -40⟩, ⟨⟨0, 1⟩, ⟨2, 4⟩, 40⟩)] }

/-- The primary link of stEither whose ending is attempted. -/
def linkEither : Link := ⟨⟨0, 0⟩, ⟨1, 2⟩, 30⟩

/-- The stEither state with the b side candidate vertex point indexed as
well, so that both candidate points are present. -/
def stBothLinked : LState :=
  { stEither with
    links := stEither.links ++ [⟨⟨1, 3⟩, ⟨2, 5⟩, 40⟩]
    p2l := stEither.p2l ++
      [(⟨100, 30⟩, ⟨⟨1, 3⟩, ⟨2, 5⟩, 40⟩), (⟨200, -40⟩, ⟨⟨1, 3⟩, ⟨2, 5⟩, 40⟩)] }

/-- A hand written linker state holding the vee pentagon geometry reduced
to its essentials: one ring of four nodes and the primary link joining the
first and last, whose ending computation exceeds both candidate segment
lengths and triggers the clamping branch with equal lengths. -/
def stClamp : LState :=
  { rings := [[⟨0, ⟨0, 0⟩⟩, ⟨1, ⟨20, 1⟩⟩, ⟨2, ⟨20, 19⟩⟩, ⟨3, ⟨0, 20⟩⟩]]
    fresh := 4
    links := [⟨⟨0, 0⟩, ⟨0, 3⟩, 20⟩]
    endings := []
    p2l := [(⟨0, 0⟩, ⟨⟨0, 0⟩, ⟨0, 3⟩, 20⟩), (⟨0, 20⟩, ⟨⟨0, 0⟩, ⟨0, 3⟩, 20⟩)] }

/-- The primary link of stClamp. -/
def linkClamp : Link := ⟨⟨0, 0⟩, ⟨0, 3⟩, 20⟩

/-- A minimal evaluator state with a single stored link, for exercising
the passed pair bookkeeping. -/
def wSmall : WState :=
  ⟨{ rings := [[⟨0, ⟨0, 0⟩⟩, ⟨1, ⟨0, 25⟩⟩]]
     fresh := 2
     links := [⟨⟨0, 0⟩, ⟨0, 1⟩, 25⟩]
     endings := []
     p2l := [(⟨0, 0⟩, ⟨⟨0, 0⟩, ⟨0, 1⟩, 25⟩), (⟨0, 25⟩, ⟨⟨0, 0⟩, ⟨0, 1⟩, 25⟩)] }, []⟩

/-- An evaluator state with no polygons at all. -/
def wEmpty : WState := ⟨⟨[], 0, [], [], []⟩, []⟩

/-- Two axis aligned unit hundred squares two hundred apart, far beyond a
proximity distance of fifty. -/
def polysFar : List (List Pt) :=
  [[⟨0, 0⟩, ⟨100, 0⟩, ⟨100, 100⟩, ⟨0, 100⟩],
   [⟨300, 0⟩, ⟨400, 0⟩, ⟨400, 100⟩, ⟨300, 100⟩]]

/-- The element actually stored by an emplace into the primary link set:
the already present equal element if there is one, else the new link. -/
def storedPrimary (st : LState) (l : Link) : Link :=
  (st.links.find? (fun m => linkEqB m l)).getD l

/-- The element actually stored by an emplace into the endings link set. -/
def storedEnding (st : LState) (l : Link) : Link :=
  (st.endings.find? (fun m => linkEqB m l)).getD l

/-- The two multimap entries registered for a stored link: one under each
endpoint point. -/
def pairEntries (st : LState) (l : Link) : List (Pt × Link) :=
  [(nodePt st l.a, l), (nodePt st l.b, l)]

/-- The per state endings distance property of C5. -/
def EndDistW (W : Int) (st : LState) : Prop := ∀ l ∈ st.endings, l.dist = W

/-- The cyclic vertex pairs of a ring in scan order: the wrap pair from
the last identity to the first, then every consecutive pair.  These are
exactly the segments the scan of a whole ring walks. -/
def cyclPairs (r : Ring) : List (Nat × Nat) :=
  match (r.getLast?).map Node.nid with
  | none => []
  | some t => (t :: ringIds r).zip (ringIds r)

/-- One scan step is a no-operation: the pair is skipped by the adjacency
rule, or the closest point of the segment is farther than the proximity
distance. -/
def noopPair (W : Int) (st : LState) (fromIt : LPI) (j : Nat) (pr : Nat × Nat) : Prop :=
  scanSkip st fromIt j pr.1 pr.2 = true ∨
    vSize2 (getClosestOnLineSegment (nodePt st fromIt) (ptOfId (ringOf st j) pr.1)
      (ptOfId (ringOf st j) pr.2) - nodePt st fromIt) > W * W

/-- The far apart hypothesis of C8, decidably: every vertex of every ring
is, against every cyclic segment of every ring, either filtered by the
adjacency skip rule or farther than the proximity distance. -/
def farApartB (st : LState) (W : Int) : Bool :=
  (List.range st.rings.length).all fun i =>
    (ringOf st i).all fun v =>
      (List.range st.rings.length).all fun j =>
        (cyclPairs (ringOf st j)).all fun pr =>
          scanSkip st ⟨i, v.nid⟩ j pr.1 pr.2 ||
            decide (vSize2 (getClosestOnLineSegment (nodePt st ⟨i, v.nid⟩)
              (ptOfId (ringOf st j) pr.1) (ptOfId (ringOf st j) pr.2)
              - nodePt st ⟨i, v.nid⟩) > W * W)

/-- Whether the second handle addresses a ring neighbour of the first:
its next or its previous node (the adjacency notion of C9). -/
def adjacentB (st : LState) (x y : LPI) : Bool :=
  x.poly == y.poly && (nextIt st x == y || prevIt st x == y)

/-- The C9 property of a single link: it joins two distinct nodes that
are not ring neighbours. -/
def linkOkB (st : LState) (l : Link) : Bool :=
  !(l.a == l.b) && !(adjacentB st l.a l.b)

/-- Well formed rings: within each ring the node identities are pairwise
distinct, and all of them are below the fresh identity counter. -/
def WFR (st : LState) : Prop :=
  ∀ r ∈ st.rings, (ringIds r).Nodup ∧ ∀ id ∈ ringIds r, id < st.fresh

/-- Every primary link joins two distinct non neighbouring nodes, and its
endpoint identities are live (below the fresh counter). -/
def LinksOk (st : LState) : Prop :=
  ∀ l ∈ st.links, linkOkB st l = true ∧ l.a.node < st.fresh ∧ l.b.node < st.fresh

/-- The invariant carried through the whole construction for C9. -/
def C9Inv (st : LState) : Prop := WFR st ∧ LinksOk st

/-- Consecutive identities of a scan list are forward ring edges. -/
def ChainR (r : Ring) : List Nat → Prop
  | [] => True
  | [_] => True
  | x :: y :: rest => nxt r x = some y ∧ ChainR r (y :: rest)

/-! ### Theorems -/

theorem linkEqB_refl (l : Link) : linkEqB l l = true := by
  simp [linkEqB]

theorem find?_append_none {p : Link → Bool} {l₁ : List Link} (l : Link)
    (h : l₁.find? p = none) :
    (l₁ ++ [l]).find? p = if p l then some l else none := by
  induction l₁ with
  | nil => cases hp : p l <;> simp [List.find?, hp]
  | cons x xs ih =>
    rw [List.find?_cons] at h
    rcases hx : p x with _ | _
    · rw [hx] at h
      simp only [List.cons_append, List.find?_cons, hx]
      exact ih h
    · rw [hx] at h
      exact absurd h (by simp)

theorem addProximityLink_rings (st : LState) (f t : LPI) (d : Int) :
    (addProximityLink st f t d).rings = st.rings := by
  unfold addProximityLink
  cases h : st.links.find? (fun m => linkEqB m ⟨f, t, d⟩) <;>
    simp [h, addToPoint2LinkMap]

theorem addProximityLink_links (st : LState) (f t : LPI) (d : Int) :
    (addProximityLink st f t d).links =
      match st.links.find? (fun m => linkEqB m ⟨f, t, d⟩) with
      | some _ => st.links
      | none => st.links ++ [⟨f, t, d⟩] := by
  unfold addProximityLink
  cases h : st.links.find? (fun m => linkEqB m ⟨f, t, d⟩) <;>
    simp [h, addToPoint2LinkMap]

theorem nodePt_congr {st st' : LState} (h : st'.rings = st.rings) (it : LPI) :
    nodePt st' it = nodePt st it := by
  simp [nodePt, ringOf, h]

theorem pairEntries_congr {st st' : LState} (h : st'.rings = st.rings) (l : Link) :
    pairEntries st' l = pairEntries st l := by
  simp [pairEntries, nodePt_congr h]

theorem addProximityLink_p2l (st : LState) (f t : LPI) (d : Int) :
    (addProximityLink st f t d).p2l =
      st.p2l ++ pairEntries st (storedPrimary st ⟨f, t, d⟩) := by
  unfold addProximityLink storedPrimary
  cases h : st.links.find? (fun m => linkEqB m ⟨f, t, d⟩) <;>
    simp [h, addToPoint2LinkMap, pairEntries, nodePt, ringOf]

theorem addProximityLinkEndings_p2l (st : LState) (f t : LPI) (d : Int) :
    (addProximityLinkEndings st f t d).p2l =
      st.p2l ++ pairEntries st (storedEnding st ⟨f, t, d⟩) := by
  unfold addProximityLinkEndings storedEnding
  cases h : st.endings.find? (fun m => linkEqB m ⟨f, t, d⟩) <;>
    simp [h, addToPoint2LinkMap, pairEntries, nodePt, ringOf]

/-- C10: every call of addProximityLink or addProximityLink_endings
unconditionally appends one point to link entry per endpoint, even when
the emplace found the link already present; consequently a link
discovered twice is indexed twice under each of its endpoint points, so
iterating the links at a point can yield the same link more than once. -/
theorem c10_index_always_appends (st : LState) (f t : LPI) (d : Int) :
    ((addProximityLink st f t d).p2l =
        st.p2l ++ pairEntries st (storedPrimary st ⟨f, t, d⟩)) ∧
    ((addProximityLinkEndings st f t d).p2l =
        st.p2l ++ pairEntries st (storedEnding st ⟨f, t, d⟩)) ∧
    ((addProximityLink (addProximityLink st f t d) f t d).p2l =
        st.p2l ++ pairEntries st (storedPrimary st ⟨f, t, d⟩)
          ++ pairEntries st (storedPrimary st ⟨f, t, d⟩)) := by
  refine ⟨addProximityLink_p2l st f t d, addProximityLinkEndings_p2l st f t d, ?_⟩
  have hr := addProximityLink_rings st f t d
  have hstored : storedPrimary (addProximityLink st f t d) ⟨f, t, d⟩
      = storedPrimary st ⟨f, t, d⟩ := by
    unfold storedPrimary
    rw [addProximityLink_links]
    cases h : st.links.find? (fun m => linkEqB m ⟨f, t, d⟩) with
    | some m => simp [h]
    | none =>
      simp only [h]
      rw [find?_append_none _ h, linkEqB_refl]
      simp
  conv_lhs => rw [addProximityLink_p2l, addProximityLink_p2l]
  rw [hstored, pairEntries_congr hr]


/-- C7: for any two links, one with endpoints p, q and distance d1, the
other with endpoints r, s and distance d2, the approximate overlap area
returned by the evaluator equals the exact integer expression
vSize(p + q - (r + s)) * (2 * W - d1 - d2) / 4 (C++ truncating division),
W being the configured line width. -/
theorem c7_approx_overlap_area_formula (W : Int) (st : LState) (l1 l2 : Link) :
    getApproxOverlapAreaLinks W st l1 l2 =
      Int.tdiv
        (vSize ((nodePt st l1.a + nodePt st l1.b) - (nodePt st l2.a + nodePt st l2.b)) *
          (2 * W - l1.dist - l2.dist)) 4 := by
  simp only [getApproxOverlapAreaLinks, getApproxOverlapArea]
  congr 1
  ring

/-- C3 correction: in the phase three ending procedure the skip happens
only when the points of both candidate vertices are already present in
the point to link index; with only the a side point present (and the b
side point absent) the procedure is not skipped and inserts an ending
link. -/
theorem c3_counterexample_one_present_not_skipped :
    p2lHasKey stEither (nodePt stEither ⟨0, 1⟩) = true ∧
    p2lHasKey stEither (nodePt stEither ⟨1, 3⟩) = false ∧
    (addProximityEnding 50 stEither linkEither ⟨0, 1⟩ ⟨1, 3⟩ ⟨0, 1⟩ ⟨1, 2⟩).endings.length
      = stEither.endings.length + 1 :=
  ⟨rfl, rfl, rfl⟩

/-- C3 (amended): the ending procedure for a direction is skipped exactly
when the points of both candidate ending vertices are already present in
the point to link index; when both are present the state is unchanged and
no ending link or node is inserted. -/
theorem c3_amended_skip_when_both_present (W : Int) (st : LState) (link : Link)
    (a2It b2It aAfter bAfter : LPI)
    (ha : p2lHasKey st (nodePt st a2It) = true)
    (hb : p2lHasKey st (nodePt st b2It) = true) :
    addProximityEnding W st link a2It b2It aAfter bAfter = st := by
  unfold addProximityEnding
  simp [ha, hb]

/-- C3 witness: the amended skip rule evaluated on a concrete state in
which both candidate vertex points are indexed. -/
theorem c3_amended_witness :
    addProximityEnding 50 stBothLinked linkEither ⟨0, 1⟩ ⟨1, 3⟩ ⟨0, 1⟩ ⟨1, 2⟩ = stBothLinked :=
  c3_amended_skip_when_both_present 50 stBothLinked linkEither ⟨0, 1⟩ ⟨1, 3⟩ ⟨0, 1⟩ ⟨1, 2⟩
    (by rfl) (by rfl)

/-- C6: the passed state is kept per unordered pair of links: for a
partner link found by handlePotentialOverlap, the first encounter of the
unordered pair contributes zero overlap area and marks the pair passed,
every later encounter of the same unordered pair contributes the
approximate overlap area; the passed test is symmetric in the two links
and marking one orientation marks both. -/
theorem c6_passed_per_unordered_pair (W : Int) (w : WState) (la lb : Link) (fIt tIt : LPI)
    (hfind : getLinkAB w.linker fIt tIt = some lb) :
    (getIsPassed w la lb = getIsPassed w lb la) ∧
    (getIsPassed w la lb = false →
      handlePotentialOverlap W w la fIt tIt = (0, setIsPassed w la lb)) ∧
    (getIsPassed w la lb = true →
      handlePotentialOverlap W w la fIt tIt =
        (getApproxOverlapAreaLinks W w.linker la lb, setIsPassed w la lb)) ∧
    (getIsPassed (setIsPassed w la lb) la lb = true) ∧
    (getIsPassed (setIsPassed w la lb) lb la = true) := by
  refine ⟨?_, ?_, ?_, ?_, ?_⟩
  · unfold getIsPassed
    congr 1
    funext pr
    exact Bool.or_comm _ _
  · intro h
    unfold handlePotentialOverlap
    rw [hfind]
    simp [h]
  · intro h
    unfold handlePotentialOverlap
    rw [hfind]
    simp [h]
  · simp [getIsPassed, setIsPassed, linkEqB_refl]
  · simp [getIsPassed, setIsPassed, linkEqB_refl]

/-- C6 witness: the passed pair bookkeeping evaluated on a concrete state
holding one link, probed at that link. -/
theorem c6_passed_witness :
    (getIsPassed wSmall ⟨⟨0, 0⟩, ⟨0, 1⟩, 25⟩ ⟨⟨0, 0⟩, ⟨0, 1⟩, 25⟩
        = getIsPassed wSmall ⟨⟨0, 0⟩, ⟨0, 1⟩, 25⟩ ⟨⟨0, 0⟩, ⟨0, 1⟩, 25⟩) ∧
    (getIsPassed wSmall ⟨⟨0, 0⟩, ⟨0, 1⟩, 25⟩ ⟨⟨0, 0⟩, ⟨0, 1⟩, 25⟩ = false →
      handlePotentialOverlap 40 wSmall ⟨⟨0, 0⟩, ⟨0, 1⟩, 25⟩ ⟨0, 0⟩ ⟨0, 1⟩
        = (0, setIsPassed wSmall ⟨⟨0, 0⟩, ⟨0, 1⟩, 25⟩ ⟨⟨0, 0⟩, ⟨0, 1⟩, 25⟩)) ∧
    (getIsPassed wSmall ⟨⟨0, 0⟩, ⟨0, 1⟩, 25⟩ ⟨⟨0, 0⟩, ⟨0, 1⟩, 25⟩ = true →
      handlePotentialOverlap 40 wSmall ⟨⟨0, 0⟩, ⟨0, 1⟩, 25⟩ ⟨0, 0⟩ ⟨0, 1⟩
        = (getApproxOverlapAreaLinks 40 wSmall.linker ⟨⟨0, 0⟩, ⟨0, 1⟩, 25⟩ ⟨⟨0, 0⟩, ⟨0, 1⟩, 25⟩,
            setIsPassed wSmall ⟨⟨0, 0⟩, ⟨0, 1⟩, 25⟩ ⟨⟨0, 0⟩, ⟨0, 1⟩, 25⟩)) ∧
    (getIsPassed (setIsPassed wSmall ⟨⟨0, 0⟩, ⟨0, 1⟩, 25⟩ ⟨⟨0, 0⟩, ⟨0, 1⟩, 25⟩)
        ⟨⟨0, 0⟩, ⟨0, 1⟩, 25⟩ ⟨⟨0, 0⟩, ⟨0, 1⟩, 25⟩ = true) ∧
    (getIsPassed (setIsPassed wSmall ⟨⟨0, 0⟩, ⟨0, 1⟩, 25⟩ ⟨⟨0, 0⟩, ⟨0, 1⟩, 25⟩)
        ⟨⟨0, 0⟩, ⟨0, 1⟩, 25⟩ ⟨⟨0, 0⟩, ⟨0, 1⟩, 25⟩ = true) :=
  c6_passed_per_unordered_pair 40 wSmall ⟨⟨0, 0⟩, ⟨0, 1⟩, 25⟩ ⟨⟨0, 0⟩, ⟨0, 1⟩, 25⟩
    ⟨0, 0⟩ ⟨0, 1⟩ (by rfl)

theorem isqrtF_eq (fuel : Nat) : ∀ n : Nat, n ≤ fuel → isqrtF fuel n = Nat.sqrt n := by
  induction fuel with
  | zero =>
    intro n hn
    interval_cases n
    simp [isqrtF]
  | succ f ih =>
    intro n hn
    rw [isqrtF]
    by_cases h2 : n < 2
    · rw [if_pos h2]
      interval_cases n <;> simp
    · rw [if_neg h2]
      have hd : n / 4 ≤ f := by
        have : n / 4 < n := Nat.div_lt_self (by omega) (by omega)
        omega
      rw [ih _ hd]
      set s := Nat.sqrt (n / 4) with hs
      have h1 : s * s ≤ n / 4 := by simpa [pow_two] using Nat.sqrt_le' (n / 4)
      have hsucc : n / 4 < (s + 1) * (s + 1) := by
        simpa [pow_two] using Nat.lt_succ_sqrt' (n / 4)
      have hmod := Nat.div_add_mod n 4
      have hmlt : n % 4 < 4 := Nat.mod_lt n (by omega)
      have h4 : 4 * (s * s) ≤ n := by omega
      have h5 : n < 4 * ((s + 1) * (s + 1)) := by omega
      show (if (2 * s + 1) * (2 * s + 1) ≤ n then 2 * s + 1 else 2 * s) = n.sqrt
      by_cases hle : (2 * s + 1) * (2 * s + 1) ≤ n
      · rw [if_pos hle]
        have ha : 2 * s + 1 ≤ Nat.sqrt n := Nat.le_sqrt.2 (by nlinarith)
        have hb : Nat.sqrt n < 2 * s + 2 := Nat.sqrt_lt.2 (by nlinarith)
        omega
      · rw [if_neg hle]
        have ha : 2 * s ≤ Nat.sqrt n := Nat.le_sqrt.2 (by nlinarith)
        have hb : Nat.sqrt n < 2 * s + 1 := Nat.sqrt_lt.2 (by omega)
        omega

theorem isqrt_eq_sqrt (n : Nat) : isqrt n = Nat.sqrt n := isqrtF_eq n n le_rfl

theorem isqrt_pos {n : Nat} (h : 1 ≤ n) : 1 ≤ isqrt n := by
  rw [isqrt_eq_sqrt]
  exact Nat.sqrt_pos.2 h

set_option maxRecDepth 10000 in
/-- C4 correction: on a state reaching the clamping branch (the computed
ending distance 600 squares to more than both candidate segment lengths
401), the procedure does not insert exactly one ending link for the
direction: it inserts the clamped equal length ending link and then falls
through into the general positive distance branch, inserting a second
ending link, so two ending links are added. -/
theorem c4_counterexample_two_endings_inserted :
    proximityEndingDistance 80 ⟨0, 0⟩ ⟨20, 1⟩ ⟨0, 20⟩ ⟨20, 19⟩ 20 = 600 ∧
    (600 : Int) * 600 >
      min (vSize2 ((⟨20, 1⟩ : Pt) - ⟨0, 0⟩)) (vSize2 ((⟨20, 19⟩ : Pt) - ⟨0, 20⟩)) ∧
    (addProximityEnding 80 stClamp linkClamp ⟨0, 1⟩ ⟨0, 2⟩ ⟨0, 1⟩ ⟨0, 3⟩).endings.length
      = stClamp.endings.length + 2 :=
  ⟨by rfl, by decide, by rfl⟩

theorem vSize2_nonneg (u : Pt) : 0 ≤ vSize2 u := by
  unfold vSize2 dot
  nlinarith [sq_nonneg u.x, sq_nonneg u.y]

theorem intSqrt_pos {n : Int} (h : 1 ≤ n) : 0 < intSqrt n := by
  unfold intSqrt
  have h1 : 1 ≤ n.toNat := by omega
  have := isqrt_pos h1
  omega

theorem insertNode_fst_endings (st : LState) (i b : Nat) (p : Pt) :
    (insertNode st i b p).1.endings = st.endings := rfl

theorem insertNode_fst_links (st : LState) (i b : Nat) (p : Pt) :
    (insertNode st i b p).1.links = st.links := rfl

theorem insertNode_fst_fresh (st : LState) (i b : Nat) (p : Pt) :
    (insertNode st i b p).1.fresh = st.fresh + 1 := rfl

theorem insertNode_snd (st : LState) (i b : Nat) (p : Pt) :
    (insertNode st i b p).2 = ⟨i, st.fresh⟩ := rfl

theorem addPLE_fresh (st : LState) (f t : LPI) (d : Int) :
    (addProximityLinkEndings st f t d).fresh = st.fresh := by
  unfold addProximityLinkEndings
  cases h : st.endings.find? (fun m => linkEqB m ⟨f, t, d⟩) <;>
    simp [h, addToPoint2LinkMap]

theorem addPLE_rings (st : LState) (f t : LPI) (d : Int) :
    (addProximityLinkEndings st f t d).rings = st.rings := by
  unfold addProximityLinkEndings
  cases h : st.endings.find? (fun m => linkEqB m ⟨f, t, d⟩) <;>
    simp [h, addToPoint2LinkMap]

theorem addPLE_links (st : LState) (f t : LPI) (d : Int) :
    (addProximityLinkEndings st f t d).links = st.links := by
  unfold addProximityLinkEndings
  cases h : st.endings.find? (fun m => linkEqB m ⟨f, t, d⟩) <;>
    simp [h, addToPoint2LinkMap]

theorem addPLE_endings (st : LState) (f t : LPI) (d : Int) :
    (addProximityLinkEndings st f t d).endings =
      match st.endings.find? (fun m => linkEqB m ⟨f, t, d⟩) with
      | some _ => st.endings
      | none => st.endings ++ [⟨f, t, d⟩] := by
  unfold addProximityLinkEndings
  cases h : st.endings.find? (fun m => linkEqB m ⟨f, t, d⟩) <;>
    simp [h, addToPoint2LinkMap]

theorem find?_linkEq_none_of_big {E : List Link} {N : Nat} (f t : LPI) (d : Int)
    (hb : ∀ l ∈ E, l.a.node < N ∧ l.b.node < N)
    (hft : N ≤ f.node ∨ N ≤ t.node) :
    E.find? (fun m => linkEqB m ⟨f, t, d⟩) = none := by
  apply List.find?_eq_none.2
  intro x hx
  have hxb := hb x hx
  simp only [linkEqB, Bool.or_eq_true, Bool.and_eq_true, beq_iff_eq, not_or, not_and]
  constructor
  · intro h1 h2
    have := congrArg LPI.node h1
    have := congrArg LPI.node h2
    simp at *
    omega
  · intro h1 h2
    have := congrArg LPI.node h1
    have := congrArg LPI.node h2
    simp at *
    omega

theorem find?_linkEq_none_of_false {E : List Link} (l : Link)
    (h : ∀ x ∈ E, linkEqB x l = false) :
    E.find? (fun m => linkEqB m l) = none := by
  apply List.find?_eq_none.2
  intro x hx
  simp [h x hx]

theorem tailTwo_endings (st2 : LState) (pa pb aAfterN bAfterN : Nat) (pA pB : Pt) (W : Int)
    (hb : ∀ l ∈ st2.endings, l.a.node < st2.fresh ∧ l.b.node < st2.fresh) :
    (addProximityLinkEndings
        (insertNode (insertNode st2 pa aAfterN pA).1 pb bAfterN pB).1
        (insertNode st2 pa aAfterN pA).2
        (insertNode (insertNode st2 pa aAfterN pA).1 pb bAfterN pB).2 W).endings
      = st2.endings ++ [⟨⟨pa, st2.fresh⟩, ⟨pb, st2.fresh + 1⟩, W⟩] := by
  rw [insertNode_snd, insertNode_snd, insertNode_fst_fresh, addPLE_endings,
    insertNode_fst_endings, insertNode_fst_endings]
  rw [find?_linkEq_none_of_big (N := st2.fresh) _ _ _ hb (Or.inl le_rfl)]

theorem addProximityEndingCore_clamp_length (W : Int) (st : LState) (link : Link)
    (a2It b2It aAfter bAfter : LPI) (d0 : Int)
    (hclamp : d0 * d0 > min (vSize2 (nodePt st a2It - nodePt st link.a))
      (vSize2 (nodePt st b2It - nodePt st link.b)))
    (hA : vSize2 (nodePt st a2It - nodePt st link.a) ≠ 0)
    (hB : vSize2 (nodePt st b2It - nodePt st link.b) ≠ 0)
    (hbound : ∀ l ∈ st.endings, l.a.node < st.fresh ∧ l.b.node < st.fresh)
    (ha2 : a2It.node < st.fresh) (hb2 : b2It.node < st.fresh)
    (hnodup : ∀ l ∈ st.endings, linkEqB l ⟨a2It, b2It, W⟩ = false) :
    (addProximityEndingCore W st link a2It b2It aAfter bAfter d0).endings.length
      = st.endings.length + 2 := by
  have hA0 := vSize2_nonneg (nodePt st a2It - nodePt st link.a)
  have hB0 := vSize2_nonneg (nodePt st b2It - nodePt st link.b)
  have hminpos : 1 ≤ min (vSize2 (nodePt st a2It - nodePt st link.a))
      (vSize2 (nodePt st b2It - nodePt st link.b)) := by omega
  have hdpos : 0 < intSqrt (min (vSize2 (nodePt st a2It - nodePt st link.a))
      (vSize2 (nodePt st b2It - nodePt st link.b))) := intSqrt_pos hminpos
  dsimp only [addProximityEndingCore]
  rw [if_pos hclamp]
  by_cases h1 : vSize2 (nodePt st a2It - nodePt st link.a)
      < vSize2 (nodePt st b2It - nodePt st link.b)
  · rw [if_pos h1]
    dsimp only
    rw [if_pos hdpos]
    set PB0 := nodePt st link.b + normalTo (nodePt st b2It - nodePt st link.b)
      (intSqrt (min (vSize2 (nodePt st a2It - nodePt st link.a))
        (vSize2 (nodePt st b2It - nodePt st link.b)))) with hPB0
    set st2 := addProximityLinkEndings (insertNode st link.b.poly bAfter.node PB0).1 a2It
      (insertNode st link.b.poly bAfter.node PB0).2 W with hst2
    have hfresh2 : st2.fresh = st.fresh + 1 := by
      rw [hst2, addPLE_fresh, insertNode_fst_fresh]
    have hE2 : st2.endings = st.endings ++ [⟨a2It, ⟨link.b.poly, st.fresh⟩, W⟩] := by
      rw [hst2, insertNode_snd, addPLE_endings, insertNode_fst_endings]
      rw [find?_linkEq_none_of_big (N := st.fresh) _ _ _ hbound (Or.inr le_rfl)]
    have hb2' : ∀ l ∈ st2.endings, l.a.node < st2.fresh ∧ l.b.node < st2.fresh := by
      rw [hE2, hfresh2]
      intro l hl
      rcases List.mem_append.1 hl with h | h
      · have := hbound l h
        omega
      · simp only [List.mem_singleton] at h
        subst h
        simp only
        omega
    rw [tailTwo_endings st2 link.a.poly link.b.poly aAfter.node bAfter.node _ _ W hb2']
    rw [hE2]
    simp [List.length_append]
  · rw [if_neg h1]
    by_cases h2 : vSize2 (nodePt st b2It - nodePt st link.b)
        < vSize2 (nodePt st a2It - nodePt st link.a)
    · rw [if_pos h2]
      dsimp only
      rw [if_pos hdpos]
      set PA0 := nodePt st link.a + normalTo (nodePt st a2It - nodePt st link.a)
        (intSqrt (min (vSize2 (nodePt st a2It - nodePt st link.a))
          (vSize2 (nodePt st b2It - nodePt st link.b)))) with hPA0
      set st2 := addProximityLinkEndings (insertNode st link.a.poly aAfter.node PA0).1
        (insertNode st link.a.poly aAfter.node PA0).2 b2It W with hst2
      have hfresh2 : st2.fresh = st.fresh + 1 := by
        rw [hst2, addPLE_fresh, insertNode_fst_fresh]
      have hE2 : st2.endings = st.endings ++ [⟨⟨link.a.poly, st.fresh⟩, b2It, W⟩] := by
        rw [hst2, insertNode_snd, addPLE_endings, insertNode_fst_endings]
        rw [find?_linkEq_none_of_big (N := st.fresh) _ _ _ hbound (Or.inl le_rfl)]
      have hb2' : ∀ l ∈ st2.endings, l.a.node < st2.fresh ∧ l.b.node < st2.fresh := by
        rw [hE2, hfresh2]
        intro l hl
        rcases List.mem_append.1 hl with h | h
        · have := hbound l h
          omega
        · simp only [List.mem_singleton] at h
          subst h
          simp only
          omega
      rw [tailTwo_endings st2 link.a.poly link.b.poly aAfter.node bAfter.node _ _ W hb2']
      rw [hE2]
      simp [List.length_append]
    · rw [if_neg h2]
      dsimp only
      rw [if_pos hdpos]
      set st2 := addProximityLinkEndings st a2It b2It W with hst2
      have hfresh2 : st2.fresh = st.fresh := by rw [hst2, addPLE_fresh]
      have hE2 : st2.endings = st.endings ++ [⟨a2It, b2It, W⟩] := by
        rw [hst2, addPLE_endings]
        rw [find?_linkEq_none_of_false _ hnodup]
      have hb2' : ∀ l ∈ st2.endings, l.a.node < st2.fresh ∧ l.b.node < st2.fresh := by
        rw [hE2, hfresh2]
        intro l hl
        rcases List.mem_append.1 hl with h | h
        · exact hbound l h
        · simp only [List.mem_singleton] at h
          subst h
          exact ⟨ha2, hb2⟩
      rw [tailTwo_endings st2 link.a.poly link.b.poly aAfter.node bAfter.node _ _ W hb2']
      rw [hE2]
      simp [List.length_append]

theorem ped_nonneg_sizes (W : Int) (a1 a2 b1 b2 : Pt) (d : Int)
    (h : 0 ≤ proximityEndingDistance W a1 a2 b1 b2 d) :
    vSize2 (a2 - a1) ≠ 0 ∧ vSize2 (b2 - b1) ≠ 0 := by
  by_contra hC
  rw [not_and_or] at hC
  have hneg : proximityEndingDistance W a1 a2 b1 b2 d = -1 := by
    dsimp only [proximityEndingDistance]
    rcases hC with h0 | h0 <;> rw [not_ne_iff] at h0 <;> simp [h0]
  omega

/-- C4 (amended): whenever the computed ending distance e satisfies
e * e > min of the two squared candidate segment lengths, the clamping
branch inserts its ending link (joining the shorter side far endpoint to
a displaced node on the longer side, or the two far vertices when the
lengths are equal), and then, since the clamped distance is still
positive, the procedure falls through into the general branch and inserts
a second ending link between two freshly inserted displaced nodes:
exactly two ending links are added for that direction. -/
theorem c4_amended_clamp_adds_two (W : Int) (st : LState) (link : Link)
    (a2It b2It aAfter bAfter : LPI)
    (hguard : p2lHasKey st (nodePt st a2It) = false ∨
      p2lHasKey st (nodePt st b2It) = false)
    (hd0 : 0 ≤ proximityEndingDistance W (nodePt st link.a) (nodePt st a2It)
      (nodePt st link.b) (nodePt st b2It) link.dist)
    (hclamp : proximityEndingDistance W (nodePt st link.a) (nodePt st a2It)
        (nodePt st link.b) (nodePt st b2It) link.dist *
      proximityEndingDistance W (nodePt st link.a) (nodePt st a2It)
        (nodePt st link.b) (nodePt st b2It) link.dist >
      min (vSize2 (nodePt st a2It - nodePt st link.a))
        (vSize2 (nodePt st b2It - nodePt st link.b)))
    (hbound : ∀ l ∈ st.endings, l.a.node < st.fresh ∧ l.b.node < st.fresh)
    (ha2 : a2It.node < st.fresh) (hb2 : b2It.node < st.fresh)
    (hnodup : ∀ l ∈ st.endings, linkEqB l ⟨a2It, b2It, W⟩ = false) :
    (addProximityEnding W st link a2It b2It aAfter bAfter).endings.length
      = st.endings.length + 2 := by
  have hAB := ped_nonneg_sizes W (nodePt st link.a) (nodePt st a2It)
    (nodePt st link.b) (nodePt st b2It) link.dist hd0
  unfold addProximityEnding
  have hg : (!p2lHasKey st (nodePt st a2It) || !p2lHasKey st (nodePt st b2It)) = true := by
    rcases hguard with h | h <;> simp [h]
  rw [hg]
  rw [if_pos rfl]
  rw [if_neg (not_lt.2 hd0)]
  exact addProximityEndingCore_clamp_length W st link a2It b2It aAfter bAfter _
    hclamp hAB.1 hAB.2 hbound ha2 hb2 hnodup

set_option maxRecDepth 10000 in
/-- C4 witness: the amended clamp and fallthrough behaviour evaluated on
the concrete vee state, where the ending distance 600 exceeds both
candidate lengths. -/
theorem c4_amended_witness :
    (addProximityEnding 80 stClamp linkClamp ⟨0, 1⟩ ⟨0, 2⟩ ⟨0, 1⟩ ⟨0, 3⟩).endings.length
      = stClamp.endings.length + 2 :=
  c4_amended_clamp_adds_two 80 stClamp linkClamp ⟨0, 1⟩ ⟨0, 2⟩ ⟨0, 1⟩ ⟨0, 3⟩
    (Or.inr (by rfl)) (by decide) (by decide)
    (by intro l hl; simp [stClamp] at hl) (by decide) (by decide)
    (by intro l hl; simp [stClamp] at hl)

theorem vSize2_pos_of_ne (f t : Pt) (h : f ≠ t) : 1 ≤ vSize2 (f - t) := by
  rcases f with ⟨fx, fy⟩
  rcases t with ⟨tx, ty⟩
  have hxy : fx ≠ tx ∨ fy ≠ ty := by
    by_contra hc
    push_neg at hc
    exact h (by simp [hc.1, hc.2])
  show 1 ≤ vSize2 ⟨fx - tx, fy - ty⟩
  unfold vSize2 dot
  simp only
  rcases hxy with h0 | h0
  · have hne : fx - tx ≠ 0 := sub_ne_zero.2 h0
    rcases lt_or_gt_of_ne hne with hlt | hgt <;> nlinarith [sq_nonneg (fy - ty)]
  · have hne : fy - ty ≠ 0 := sub_ne_zero.2 h0
    rcases lt_or_gt_of_ne hne with hlt | hgt <;> nlinarith [sq_nonneg (fx - tx)]

theorem vSize_pos_of_ne (f t : Pt) (h : f ≠ t) : 0 < vSize (f - t) :=
  intSqrt_pos (vSize2_pos_of_ne f t h)

set_option maxRecDepth 10000 in
/-- C1 correction: the flow is not always inside the unit interval.  On a
polygon carrying a duplicated consecutive vertex whose point is linked,
the written back ring has the directed wall edge from (0,0) to (0,0), and
getFlow there divides zero by zero: the float result is NaN (modelled as
none), which is not a value of the interval. -/
theorem c1_counterexample_nan_on_degenerate_edge :
    isRingEdge wsDup.linker ⟨0, 0⟩ ⟨0, 0⟩ = true ∧
    (getFlow 40 wsDup ⟨0, 0⟩ ⟨0, 0⟩).1 = none :=
  ⟨by rfl, by rfl⟩

/-- C1 (amended): for every directed wall edge whose endpoints are
distinct points (and a positive line width), getFlow returns a finite
value lying in the closed unit interval; only the degenerate edge with
equal endpoint points escapes through the unguarded division. -/
theorem c1_amended_flow_unit_interval (W : Int) (w : WState) (f t : Pt)
    (hW : 0 < W) (hft : f ≠ t) :
    ∃ q : Rat, (getFlow W w f t).1 = some q ∧ 0 ≤ q ∧ q ≤ 1 := by
  unfold getFlow
  by_cases h1 : isLinkedPt w.linker f
  case neg =>
    simp only [h1]
    exact ⟨1, rfl, by norm_num, by norm_num⟩
  case pos =>
    simp only [h1, Bool.not_true, Bool.false_eq_true, if_false]
    by_cases h2 : (linksAtPt w.linker t).isEmpty
    case pos =>
      simp only [h2]
      exact ⟨1, rfl, by norm_num, by norm_num⟩
    case neg =>
      simp only [h2, Bool.false_eq_true, if_false]
      have hv : 0 < vSize (f - t) := vSize_pos_of_ne f t hft
      have hnorm : 0 < vSize (f - t) * W := mul_pos hv hW
      rw [if_neg (by omega : ¬ vSize (f - t) * W = 0)]
      set q : Rat := ((vSize (f - t) * W - (flowOverlap W w f t).1 : Int) : Rat)
        / ((vSize (f - t) * W : Int) : Rat) with hq
      by_cases hq1 : q > 1
      · rw [if_pos hq1]
        exact ⟨1, rfl, by norm_num, by norm_num⟩
      · rw [if_neg hq1]
        by_cases hq0 : q < 0
        · rw [if_pos hq0]
          exact ⟨0, rfl, by norm_num, by norm_num⟩
        · rw [if_neg hq0]
          exact ⟨q, rfl, not_lt.1 hq0, not_lt.1 hq1⟩

/-- C1 witness: the amended bound evaluated on the empty state at a
nondegenerate edge. -/
theorem c1_amended_witness :
    ∃ q : Rat, (getFlow 1 wEmpty ⟨0, 0⟩ ⟨1, 0⟩).1 = some q ∧ 0 ≤ q ∧ q ≤ 1 :=
  c1_amended_flow_unit_interval 1 wEmpty ⟨0, 0⟩ ⟨1, 0⟩ (by decide) (by decide)

set_option maxRecDepth 10000 in
/-- C2 correction: the division by the nominal area is not guarded.  On
the concrete degenerate linked edge the nominal area is zero, both
endpoints are linked, and getFlow does not return 1: it returns the
modelled NaN of the zero by zero float division. -/
theorem c2_counterexample_zero_nominal_not_one :
    vSize ((⟨0, 0⟩ : Pt) - ⟨0, 0⟩) * 40 = 0 ∧
    isLinkedPt wsDup.linker ⟨0, 0⟩ = true ∧
    (getFlow 40 wsDup ⟨0, 0⟩ ⟨0, 0⟩).1 ≠ some 1 := by
  refine ⟨by decide, by rfl, ?_⟩
  have h : (getFlow 40 wsDup ⟨0, 0⟩ ⟨0, 0⟩).1 = none := by rfl
  rw [h]
  simp

/-- C2 (amended): when both endpoints of the probed edge are linked and
the nominal area vSize(from - to) * W is zero, getFlow performs the
division anyway, following the float semantics of the source: the result
is NaN (none) when the accumulated overlap area is zero, the clamped 0
when the overlap area is positive (minus infinity), and the clamped 1
when it is negative (plus infinity); it does not return 1 through any
dedicated zero guard. -/
theorem c2_amended_unguarded_zero_nominal (W : Int) (w : WState) (f t : Pt)
    (hlink : isLinkedPt w.linker f = true)
    (hto : (linksAtPt w.linker t).isEmpty = false)
    (hnorm : vSize (f - t) * W = 0) :
    (getFlow W w f t).1 =
      (if (flowOverlap W w f t).1 = 0 then none
       else if (flowOverlap W w f t).1 > 0 then some 0 else some 1) := by
  unfold getFlow
  simp only [hlink, hto, Bool.not_true, Bool.false_eq_true, if_false]
  rw [if_pos hnorm]
  by_cases h0 : (flowOverlap W w f t).1 = 0
  · rw [if_pos h0, if_pos h0]
  · rw [if_neg h0, if_neg h0]
    by_cases hp : (flowOverlap W w f t).1 > 0
    · rw [if_pos hp, if_pos hp]
    · rw [if_neg hp, if_neg hp]

set_option maxRecDepth 10000 in
/-- C2 witness: the amended zero nominal behaviour evaluated at the
concrete degenerate linked edge. -/
theorem c2_amended_witness :
    (getFlow 40 wsDup ⟨0, 0⟩ ⟨0, 0⟩).1 =
      (if (flowOverlap 40 wsDup ⟨0, 0⟩ ⟨0, 0⟩).1 = 0 then none
       else if (flowOverlap 40 wsDup ⟨0, 0⟩ ⟨0, 0⟩).1 > 0 then some 0 else some 1) :=
  c2_amended_unguarded_zero_nominal 40 wsDup ⟨0, 0⟩ ⟨0, 0⟩ (by rfl) (by rfl) (by decide)

theorem foldl_inv {α β : Type} (P : α → Prop) (f : α → β → α) :
    ∀ (l : List β) (s : α), P s → (∀ a b, P a → P (f a b)) → P (l.foldl f s) := by
  intro l
  induction l with
  | nil => intro s h _; exact h
  | cons x xs ih => intro s h hstep; exact ih _ (hstep s x h) hstep

theorem addProximityLink_endingsEq (st : LState) (f t : LPI) (d : Int) :
    (addProximityLink st f t d).endings = st.endings := by
  unfold addProximityLink
  cases h : st.links.find? (fun m => linkEqB m ⟨f, t, d⟩) <;>
    simp [h, addToPoint2LinkMap]

theorem scanSegs_endings (W : Int) (fromIt : LPI) (j : Nat) :
    ∀ (tv : List Nat) (st : LState) (lastId : Nat),
      (scanSegs W fromIt j st lastId tv).endings = st.endings := by
  intro tv
  induction tv with
  | nil => intro st lastId; rfl
  | cons itId rest ih =>
    intro st lastId
    simp only [scanSegs]
    split
    · exact ih st itId
    · split
      · exact ih st itId
      · split
        · rw [ih]
          exact addProximityLink_endingsEq st fromIt ⟨j, lastId⟩ _
        · split
          · rw [ih]
            exact addProximityLink_endingsEq st fromIt ⟨j, itId⟩ _
          · rw [ih]
            rw [addProximityLink_endingsEq]
            exact insertNode_fst_endings st j itId _

theorem scanFrom_endings (W : Int) (st : LState) (fromIt : LPI) (j : Nat) (b : Bool) :
    (scanFrom W st fromIt j b).endings = st.endings := by
  unfold scanFrom
  cases h : (ringOf st j).getLast? <;> simp [h, scanSegs_endings]

theorem scanPolyPairCross_endings (W : Int) (i j : Nat) (st : LState) :
    (scanPolyPairCross W i j st).endings = st.endings := by
  unfold scanPolyPairCross
  apply foldl_inv (fun s => s.endings = st.endings) _ _ st rfl
  intro a b ha
  show (scanFrom W a ⟨i, b⟩ j false).endings = st.endings
  rw [scanFrom_endings]
  exact ha

theorem scanPolySelf_endings (W : Int) (i : Nat) :
    ∀ (fuel : Nat) (st : LState) (cur : Option Nat),
      (scanPolySelf W i st cur fuel).endings = st.endings := by
  intro fuel
  induction fuel with
  | zero => intro st cur; cases cur <;> rfl
  | succ f ih =>
    intro st cur
    cases cur with
    | none => rfl
    | some vid =>
      simp only [scanPolySelf]
      rw [ih, scanFrom_endings]

theorem findProximatePointsAll_endings (W : Int) (st : LState) (fuel : Nat) :
    (findProximatePointsAll W st fuel).endings = st.endings := by
  unfold findProximatePointsAll
  apply foldl_inv (fun s => s.endings = st.endings) _ _ st rfl
  intro a i ha
  apply foldl_inv (fun s => s.endings = st.endings) _ _ a ha
  intro a2 j ha2
  by_cases hij : (j == i) = true
  · simp only [hij, if_true]
    rw [scanPolySelf_endings, ha2]
  · have hf : (j == i) = false := by simpa using hij
    simp only [hf, Bool.false_eq_true, if_false]
    rw [scanPolyPairCross_endings, ha2]

theorem addPLE_endings_subset (st : LState) (f t : LPI) (d : Int) :
    ∀ l ∈ (addProximityLinkEndings st f t d).endings, l ∈ st.endings ∨ l = ⟨f, t, d⟩ := by
  intro l hl
  rw [addPLE_endings] at hl
  cases h : st.endings.find? (fun m => linkEqB m ⟨f, t, d⟩) with
  | some m =>
    rw [h] at hl
    exact Or.inl hl
  | none =>
    rw [h] at hl
    rcases List.mem_append.1 hl with h2 | h2
    · exact Or.inl h2
    · simp only [List.mem_singleton] at h2
      exact Or.inr h2

theorem addPLE_endDistW {W : Int} {st : LState} (f t : LPI) (h : EndDistW W st) :
    EndDistW W (addProximityLinkEndings st f t W) := by
  intro l hl
  rcases addPLE_endings_subset st f t W l hl with h2 | h2
  · exact h l h2
  · rw [h2]

theorem insertNode_endDistW {W : Int} {st : LState} (i b : Nat) (p : Pt)
    (h : EndDistW W st) : EndDistW W (insertNode st i b p).1 := by
  intro l hl
  rw [insertNode_fst_endings] at hl
  exact h l hl

theorem addProximityEndingCore_endDistW {W : Int} {st : LState} (link : Link)
    (a2It b2It aAfter bAfter : LPI) (d0 : Int) (h : EndDistW W st) :
    EndDistW W (addProximityEndingCore W st link a2It b2It aAfter bAfter d0) := by
  dsimp only [addProximityEndingCore]
  split
  case isTrue hcl =>
    split
    case isTrue h1 =>
      dsimp only
      split
      · exact addPLE_endDistW _ _ (insertNode_endDistW _ _ _
          (insertNode_endDistW _ _ _ (addPLE_endDistW _ _ (insertNode_endDistW _ _ _ h))))
      · split
        · exact addPLE_endDistW _ _ (addPLE_endDistW _ _ (insertNode_endDistW _ _ _ h))
        · exact addPLE_endDistW _ _ (insertNode_endDistW _ _ _ h)
    case isFalse h1 =>
      split
      case isTrue h2 =>
        dsimp only
        split
        · exact addPLE_endDistW _ _ (insertNode_endDistW _ _ _
            (insertNode_endDistW _ _ _ (addPLE_endDistW _ _ (insertNode_endDistW _ _ _ h))))
        · split
          · exact addPLE_endDistW _ _ (addPLE_endDistW _ _ (insertNode_endDistW _ _ _ h))
          · exact addPLE_endDistW _ _ (insertNode_endDistW _ _ _ h)
      case isFalse h2 =>
        dsimp only
        split
        · exact addPLE_endDistW _ _ (insertNode_endDistW _ _ _
            (insertNode_endDistW _ _ _ (addPLE_endDistW _ _ h)))
        · split
          · exact addPLE_endDistW _ _ (addPLE_endDistW _ _ h)
          · exact addPLE_endDistW _ _ h
  case isFalse hcl =>
    dsimp only
    split
    · exact addPLE_endDistW _ _ (insertNode_endDistW _ _ _ (insertNode_endDistW _ _ _ h))
    · split
      · exact addPLE_endDistW _ _ h
      · exact h

theorem addProximityEnding_endDistW {W : Int} {st : LState} (link : Link)
    (a2It b2It aAfter bAfter : LPI) (h : EndDistW W st) :
    EndDistW W (addProximityEnding W st link a2It b2It aAfter bAfter) := by
  unfold addProximityEnding
  split
  · dsimp only
    split
    · exact h
    · exact addProximityEndingCore_endDistW link a2It b2It aAfter bAfter _ h
  · exact h

theorem addProximityEndings_endDistW {W : Int} {st : LState} (h : EndDistW W st) :
    EndDistW W (addProximityEndings W st) := by
  unfold addProximityEndings
  apply foldl_inv (EndDistW W) _ _ st h
  intro a link ha
  by_cases hd : (link.dist == W) = true
  · simp only [hd, if_true]
    exact ha
  · have hf : (link.dist == W) = false := by simpa using hd
    simp only [hf, Bool.false_eq_true, if_false]
    exact addProximityEnding_endDistW link _ _ _ _ (addProximityEnding_endDistW link _ _ _ _ ha)

/-- C5: after construction, every link stored in the endings link set has
its distance exactly equal to the proximity distance W. -/
theorem c5_endings_dist_eq_w (polys : List (List Pt)) (W : Int) (fuel : Nat) :
    ((buildLinker polys W fuel).endings.all (fun l => l.dist == W)) = true := by
  rw [List.all_eq_true]
  intro l hl
  have hP : EndDistW W (buildLinker polys W fuel) := by
    unfold buildLinker
    apply addProximityEndings_endDistW
    intro x hx
    rw [findProximatePointsAll_endings] at hx
    simp [initState] at hx
  rw [beq_iff_eq]
  exact hP l hl

theorem scanSegs_noop (W : Int) (fromIt : LPI) (j : Nat) :
    ∀ (tv : List Nat) (st : LState) (lastId : Nat),
      (∀ pr ∈ (lastId :: tv).zip tv, noopPair W st fromIt j pr) →
      scanSegs W fromIt j st lastId tv = st := by
  intro tv
  induction tv with
  | nil => intro st lastId _; rfl
  | cons itId rest ih =>
    intro st lastId hp
    have hhead : noopPair W st fromIt j (lastId, itId) := hp (lastId, itId) (by simp)
    have htail : ∀ pr ∈ (itId :: rest).zip rest, noopPair W st fromIt j pr := by
      intro pr hpr
      exact hp pr (by simp [List.zip_cons_cons]; right; simpa using hpr)
    simp only [scanSegs]
    by_cases hskip : scanSkip st fromIt j lastId itId = true
    · rw [if_pos hskip]
      exact ih st itId htail
    · rw [if_neg hskip]
      rcases hhead with hsk | hfar
      · exact absurd hsk hskip
      · rw [if_pos (by simp only [Bool.or_eq_true, decide_eq_true_eq]; exact Or.inl hfar)]
        exact ih st itId htail

theorem zip_tail_drop {α : Type} : ∀ (k : Nat) (l : List α),
    (l.drop k).zip ((l.drop k).tail) = (l.zip l.tail).drop k := by
  intro k
  induction k with
  | zero => intro l; rfl
  | succ n ih =>
    intro l
    cases l with
    | nil => simp
    | cons x xs =>
      simp only [List.drop_succ_cons]
      rw [ih xs]
      cases xs with
      | nil => simp
      | cons y ys => simp [List.zip_cons_cons]

theorem consec_mem_cyclPairs (r : Ring) (pr : Nat × Nat)
    (h : pr ∈ (ringIds r).zip (ringIds r).tail) : pr ∈ cyclPairs r := by
  unfold cyclPairs
  cases hL : (r.getLast?).map Node.nid with
  | none =>
    rcases r with _ | ⟨x, xs⟩
    · simp [ringIds] at h
    · rw [Option.map_eq_none'] at hL
      simp at hL
  | some t =>
    show pr ∈ (t :: ringIds r).zip (ringIds r)
    cases hr : ringIds r with
    | nil => rw [hr] at h; simp at h
    | cons i0 tl =>
      rw [hr] at h
      simp only [List.zip_cons_cons, List.mem_cons]
      right
      simpa using h

theorem findIdx?_start_spec (id : Nat) : ∀ (r : Ring) (s i : Nat),
    List.findIdx? (fun n => n.nid == id) r s = some i →
    s ≤ i ∧ i - s < r.length ∧ ∃ n, r.get? (i - s) = some n ∧ n.nid = id := by
  intro r
  induction r with
  | nil => intro s i h; simp [List.findIdx?] at h
  | cons x xs ih =>
    intro s i h
    rw [List.findIdx?_cons] at h
    by_cases hx : (x.nid == id) = true
    · rw [if_pos hx] at h
      have hi : s = i := Option.some_inj.1 h
      subst hi
      exact ⟨le_rfl, by simp, x, by simp, beq_iff_eq.1 hx⟩
    · rw [if_neg hx] at h
      obtain ⟨hs, hlt, n, hget, hnid⟩ := ih (s + 1) i h
      refine ⟨by omega, by simp; omega, n, ?_, hnid⟩
      have hq : i - s = (i - (s + 1)) + 1 := by omega
      rw [hq]
      simpa using hget

theorem posOf_spec (r : Ring) (id i : Nat) (h : posOf r id = some i) :
    i < r.length ∧ ∃ n, r.get? i = some n ∧ n.nid = id := by
  obtain ⟨_, hlt, n, hget, hnid⟩ := findIdx?_start_spec id r 0 i h
  simp only [Nat.sub_zero] at hlt hget
  exact ⟨hlt, n, hget, hnid⟩

theorem idsFrom_cases (r : Ring) (id : Nat) :
    idsFrom r id = [] ∨
      ∃ k rest, idsFrom r id = (ringIds r).drop k ∧ (ringIds r).drop k = id :: rest := by
  unfold idsFrom
  cases hp : posOf r id with
  | none => exact Or.inl rfl
  | some k =>
    right
    obtain ⟨hk, n, hget, hnid⟩ := posOf_spec r id k hp
    have hklen : k < (ringIds r).length := by simpa [ringIds] using hk
    refine ⟨k, (ringIds r).drop (k + 1), rfl, ?_⟩
    have hdrop := List.drop_eq_getElem_cons hklen
    have hgetElem : (ringIds r)[k] = id := by
      have h1 : (ringIds r).get? k = some ((ringIds r)[k]) := by
        rw [List.get?_eq_getElem?]
        exact (List.getElem?_eq_getElem hklen)
      have h2 : (ringIds r).get? k = some id := by
        unfold ringIds
        rw [List.get?_map, hget]
        simp [hnid]
      rw [h1] at h2
      exact (Option.some_inj.1 h2)
    rw [hdrop, hgetElem]

theorem foldl_inv_mem {α β : Type} (P : α → Prop) (f : α → β → α) :
    ∀ (l : List β) (s : α), P s → (∀ a b, b ∈ l → P a → P (f a b)) → P (l.foldl f s) := by
  intro l
  induction l with
  | nil => intro s h _; exact h
  | cons x xs ih =>
    intro s h hstep
    exact ih _ (hstep s x (by simp) h) (fun a b hb => hstep a b (by simp [hb]))

theorem nextInList_mem {r : Ring} {id y : Nat} (h : nextInList r id = some y) :
    y ∈ ringIds r := by
  unfold nextInList at h
  cases hp : posOf r id with
  | none => rw [hp] at h; simp at h
  | some k =>
    rw [hp] at h
    change (r.get? (k + 1)).map Node.nid = some y at h
    cases hg : r.get? (k + 1) with
    | none => rw [hg] at h; simp at h
    | some n =>
      rw [hg] at h
      simp at h
      rw [← h]
      exact List.mem_map.2 ⟨n, List.get?_mem hg, rfl⟩

theorem headId_mem {r : Ring} {y : Nat} (h : (r.head?).map Node.nid = some y) :
    y ∈ ringIds r := by
  cases r with
  | nil => simp at h
  | cons n rs =>
    simp only [List.head?_cons, Option.map_some] at h
    have hy : n.nid = y := Option.some_inj.1 h
    rw [← hy]
    exact List.mem_map.2 ⟨n, by simp, rfl⟩

theorem scanFrom_noop (W : Int) (st : LState) (fromIt : LPI) (j : Nat) (b : Bool)
    (h : ∀ pr ∈ cyclPairs (ringOf st j), noopPair W st fromIt j pr)
    (hself : b = true → fromIt.poly = j) :
    scanFrom W st fromIt j b = st := by
  unfold scanFrom
  dsimp only
  cases hL : ((ringOf st j).getLast?).map Node.nid with
  | none => rfl
  | some lastId =>
    show scanSegs W fromIt j st lastId
      (if b = true then idsFrom (ringOf st j) fromIt.node else ringIds (ringOf st j)) = st
    cases b with
    | false =>
      simp only [Bool.false_eq_true, if_false]
      apply scanSegs_noop
      intro pr hpr
      apply h
      unfold cyclPairs
      rw [hL]
      simpa using hpr
    | true =>
      simp only [if_true]
      apply scanSegs_noop
      intro pr hpr
      rcases idsFrom_cases (ringOf st j) fromIt.node with h0 | ⟨k, rest, hk, hdrop⟩
      · rw [h0] at hpr
        simp at hpr
      · rw [hk, hdrop] at hpr
        rw [List.zip_cons_cons] at hpr
        rcases List.mem_cons.1 hpr with hh | ht
        · rw [hh]
          left
          simp [scanSkip, hself rfl]
        · apply h
          apply consec_mem_cyclPairs
          have hmem : pr ∈ ((ringIds (ringOf st j)).drop k).zip
              ((ringIds (ringOf st j)).drop k).tail := by
            rw [hdrop]
            simpa using ht
          rw [zip_tail_drop] at hmem
          exact List.mem_of_mem_drop hmem

theorem scanPolyPairCross_noop (W : Int) (i j : Nat) (st : LState)
    (h : ∀ vid ∈ ringIds (ringOf st i), ∀ pr ∈ cyclPairs (ringOf st j),
      noopPair W st ⟨i, vid⟩ j pr) :
    scanPolyPairCross W i j st = st := by
  unfold scanPolyPairCross
  apply foldl_inv_mem (fun s => s = st) _ _ st rfl
  intro a vid hvid ha
  show scanFrom W a ⟨i, vid⟩ j false = st
  rw [ha]
  exact scanFrom_noop W st ⟨i, vid⟩ j false (h vid hvid) (by simp)

theorem scanPolySelf_noop (W : Int) (i : Nat) (st : LState)
    (h : ∀ vid ∈ ringIds (ringOf st i), ∀ pr ∈ cyclPairs (ringOf st i),
      noopPair W st ⟨i, vid⟩ i pr) :
    ∀ (fuel : Nat) (cur : Option Nat),
      (∀ vid, cur = some vid → vid ∈ ringIds (ringOf st i)) →
      scanPolySelf W i st cur fuel = st := by
  intro fuel
  induction fuel with
  | zero => intro cur _; cases cur <;> rfl
  | succ f ih =>
    intro cur hcur
    cases cur with
    | none => rfl
    | some vid =>
      simp only [scanPolySelf]
      rw [scanFrom_noop W st ⟨i, vid⟩ i true (h vid (hcur vid rfl)) (fun _ => rfl)]
      apply ih
      intro v hv
      exact nextInList_mem hv

theorem farApart_noop_of (st : LState) (W : Int) (hfar : farApartB st W = true) :
    ∀ i, i < st.rings.length → ∀ j, j < st.rings.length →
      ∀ vid ∈ ringIds (ringOf st i), ∀ pr ∈ cyclPairs (ringOf st j),
        noopPair W st ⟨i, vid⟩ j pr := by
  intro i hi j hj vid hvid pr hpr
  unfold farApartB at hfar
  rw [List.all_eq_true] at hfar
  have h1 := hfar i (List.mem_range.2 hi)
  rw [List.all_eq_true] at h1
  obtain ⟨n, hn, hnid⟩ := List.mem_map.1 hvid
  have h2 := h1 n hn
  rw [List.all_eq_true] at h2
  have h3 := h2 j (List.mem_range.2 hj)
  rw [List.all_eq_true] at h3
  have h4 := h3 pr hpr
  rw [hnid] at h4
  rw [Bool.or_eq_true] at h4
  rcases h4 with h5 | h5
  · exact Or.inl h5
  · exact Or.inr (of_decide_eq_true h5)

theorem findProximatePointsAll_noop (W : Int) (st : LState) (fuel : Nat)
    (hfar : farApartB st W = true) :
    findProximatePointsAll W st fuel = st := by
  unfold findProximatePointsAll
  have hnoop := farApart_noop_of st W hfar
  apply foldl_inv_mem (fun s => s = st) _ _ st rfl
  intro a i hi ha
  have hilt : i < st.rings.length := List.mem_range.1 hi
  show (List.range (i + 1)).foldl _ a = st
  refine foldl_inv_mem (fun s => s = st) _ _ _ ha ?_
  intro a2 j hj ha2
  have hjlt : j < st.rings.length := by
    have := List.mem_range.1 hj
    omega
  by_cases hij : (j == i) = true
  · simp only [hij, if_true]
    rw [ha2]
    have hji : j = i := beq_iff_eq.1 hij
    subst hji
    apply scanPolySelf_noop W j st (hnoop j hjlt j hjlt)
    intro v hv
    exact headId_mem hv
  · have hf : (j == i) = false := by simpa using hij
    simp only [hf, Bool.false_eq_true, if_false]
    rw [ha2]
    exact scanPolyPairCross_noop W i j st (hnoop i hilt j hjlt)

/-- C8: for polygons in which every vertex to segment probe is either
adjacency skipped or farther than W (in particular two polygons whose
minimum inter distance exceeds W, with no two own edges within W), the
constructed primary and endings link sets are empty and getFlow returns 1
for every directed edge. -/
theorem c8_far_apart_empty_and_unit_flow (polys : List (List Pt)) (W : Int) (fuel : Nat)
    (hfar : farApartB (initState polys) W = true) :
    (buildLinker polys W fuel).links = [] ∧
    (buildLinker polys W fuel).endings = [] ∧
    ∀ f t : Pt, (getFlow W ⟨buildLinker polys W fuel, []⟩ f t).1 = some 1 := by
  have hbuild : buildLinker polys W fuel = initState polys := by
    unfold buildLinker
    rw [findProximatePointsAll_noop W _ fuel hfar]
    rfl
  rw [hbuild]
  refine ⟨rfl, rfl, ?_⟩
  intro f t
  unfold getFlow
  simp [isLinkedPt, p2lHasKey, initState]

/-- C8 witness: two squares two hundred apart with proximity distance
fifty satisfy the far apart hypothesis, and the construction yields empty
link sets and unit flow on a sample edge. -/
theorem c8_far_apart_witness :
    farApartB (initState polysFar) 50 = true ∧
    (buildLinker polysFar 50 100).links = [] ∧
    (buildLinker polysFar 50 100).endings = [] ∧
    (getFlow 50 ⟨buildLinker polysFar 50 100, []⟩ ⟨0, 0⟩ ⟨100, 0⟩).1 = some 1 := by
  have hfar : farApartB (initState polysFar) 50 = true := by rfl
  have h := c8_far_apart_empty_and_unit_flow polysFar 50 100 hfar
  exact ⟨hfar, h.1, h.2.1, h.2.2 ⟨0, 0⟩ ⟨100, 0⟩⟩

set_option maxRecDepth 10000 in
/-- C9 correction: a full construction can store an endings link whose two
handles are the same node.  On the vee pentagon the only primary link has
exactly one vertex between its endpoints on the tip side, so both
candidate ending vertices of the first direction are that very node; the
ending distance exceeds both equal segment lengths, and the equal length
clamping fallback links the node to itself. -/
theorem c9_counterexample_self_paired_ending :
    (stVee.endings.any fun l => l.a == l.b) = true := by rfl

theorem ringIds_cons (m : Node) (l : List Node) : ringIds (m :: l) = m.nid :: ringIds l := rfl

theorem ringIds_append (a b : Ring) : ringIds (a ++ b) = ringIds a ++ ringIds b := by
  simp [ringIds]

theorem mem_ringIds_cons {z : Nat} {m : Node} {l : List Node} :
    z ∈ ringIds (m :: l) ↔ z = m.nid ∨ z ∈ ringIds l := by
  rw [ringIds_cons, List.mem_cons]

theorem first_occ_split (z : Nat) : ∀ (l : List Node), z ∈ ringIds l →
    ∃ q z0 u, l = q ++ z0 :: u ∧ z0.nid = z ∧ z ∉ ringIds q := by
  intro l
  induction l with
  | nil => intro h; simp [ringIds] at h
  | cons m rest ih =>
    intro h
    by_cases hm : m.nid = z
    · exact ⟨[], m, rest, rfl, hm, by simp [ringIds]⟩
    · have hz : z ∈ ringIds rest := by
        rcases mem_ringIds_cons.1 h with h1 | h1
        · exact absurd h1.symm hm
        · exact h1
      obtain ⟨q, z0, u, hl, hnid, hq⟩ := ih hz
      refine ⟨m :: q, z0, u, by simp [hl], hnid, ?_⟩
      rw [mem_ringIds_cons]
      rintro (h1 | h1)
      · exact hm h1.symm
      · exact hq h1

theorem ringInsertBefore_split (tId : Nat) (w : Node) :
    ∀ (r : Ring), tId ∈ ringIds r →
    ∃ p s t0, r = p ++ t0 :: s ∧ t0.nid = tId ∧ tId ∉ ringIds p ∧
      ringInsertBefore r tId w = p ++ w :: t0 :: s := by
  intro r
  induction r with
  | nil => intro h; simp [ringIds] at h
  | cons m rest ih =>
    intro h
    by_cases hm : (m.nid == tId) = true
    · exact ⟨[], rest, m, rfl, beq_iff_eq.1 hm, by simp [ringIds],
        by simp [ringInsertBefore, hm]⟩
    · have ht : tId ∈ ringIds rest := by
        rcases mem_ringIds_cons.1 h with h1 | h1
        · exact absurd (beq_iff_eq.2 h1.symm) hm
        · exact h1
      obtain ⟨p, s, t0, hr, ht0, hnp, hins⟩ := ih ht
      refine ⟨m :: p, s, t0, by simp [hr], ht0, ?_, ?_⟩
      · rw [mem_ringIds_cons]
        rintro (h1 | h1)
        · exact hm (beq_iff_eq.2 h1.symm)
        · exact hnp h1
      · simp only [ringInsertBefore, hm, Bool.false_eq_true, if_false, List.cons_append]
        rw [hins]

theorem ringInsertBefore_not_mem (tId : Nat) (w : Node) :
    ∀ (r : Ring), tId ∉ ringIds r → ringInsertBefore r tId w = r := by
  intro r
  induction r with
  | nil => intro _; rfl
  | cons m rest ih =>
    intro h
    rw [mem_ringIds_cons] at h
    push_neg at h
    have hm : (m.nid == tId) = false :=
      beq_eq_false_iff_ne.2 (fun hh => h.1 hh.symm)
    simp only [ringInsertBefore, hm, Bool.false_eq_true, if_false]
    rw [ih h.2]

theorem nxtAux_not_mem (h z : Nat) : ∀ (l : List Node), z ∉ ringIds l →
    nxtAux h l z = none := by
  intro l
  induction l with
  | nil => intro _; rfl
  | cons m rest ih =>
    intro hz
    rw [mem_ringIds_cons] at hz
    push_neg at hz
    have hm : (m.nid == z) = false :=
      beq_eq_false_iff_ne.2 (fun hh => hz.1 hh.symm)
    cases rest with
    | nil => simp [nxtAux, hm]
    | cons m2 rest2 =>
      simp only [nxtAux, hm, Bool.false_eq_true, if_false]
      exact ih hz.2

theorem nxtAux_append (h z : Nat) : ∀ (p l : List Node), z ∉ ringIds p → l ≠ [] →
    nxtAux h (p ++ l) z = nxtAux h l z := by
  intro p
  induction p with
  | nil => intro l _ _; rfl
  | cons m p2 ih =>
    intro l hz hl
    rw [mem_ringIds_cons] at hz
    push_neg at hz
    have hm : (m.nid == z) = false :=
      beq_eq_false_iff_ne.2 (fun hh => hz.1 hh.symm)
    cases hpl : p2 ++ l with
    | nil =>
      rcases List.append_eq_nil.1 hpl with ⟨_, h2⟩
      exact absurd h2 hl
    | cons a u =>
      show nxtAux h (m :: (p2 ++ l)) z = nxtAux h l z
      rw [hpl]
      simp only [nxtAux, hm, Bool.false_eq_true, if_false]
      rw [← hpl]
      exact ih l hz.2 hl

theorem nxtAux_cons_cons (h z : Nat) (x y : Node) (u : List Node) (hx : x.nid = z) :
    nxtAux h (x :: y :: u) z = some y.nid := by
  simp [nxtAux, beq_iff_eq.2 hx]

theorem nxtAux_single (h z : Nat) (x : Node) (hx : x.nid = z) :
    nxtAux h [x] z = some h := by
  simp [nxtAux, beq_iff_eq.2 hx]

theorem nxt_of_split (r : Ring) (pre : List Node) (x y : Node) (suf : List Node)
    (hr : r = pre ++ x :: y :: suf) (hx : x.nid ∉ ringIds pre) :
    nxt r x.nid = some y.nid := by
  subst hr
  cases pre with
  | nil =>
    show nxtAux x.nid (x :: y :: suf) x.nid = some y.nid
    exact nxtAux_cons_cons _ _ x y suf rfl
  | cons m p2 =>
    show nxtAux m.nid ((m :: p2) ++ x :: y :: suf) x.nid = some y.nid
    rw [nxtAux_append m.nid x.nid (m :: p2) (x :: y :: suf) hx (by simp)]
    exact nxtAux_cons_cons _ _ x y suf rfl

theorem nxt_of_last (r : Ring) (pre : List Node) (x : Node)
    (hr : r = pre ++ [x]) (hx : x.nid ∉ ringIds pre) :
    ∃ hd, r.head? = some hd ∧ nxt r x.nid = some hd.nid := by
  subst hr
  cases pre with
  | nil =>
    exact ⟨x, rfl, nxtAux_single _ _ x rfl⟩
  | cons m p2 =>
    refine ⟨m, rfl, ?_⟩
    show nxtAux m.nid ((m :: p2) ++ [x]) x.nid = some m.nid
    rw [nxtAux_append m.nid x.nid (m :: p2) [x] hx (by simp)]
    exact nxtAux_single _ _ x rfl

theorem nxtAux_mem_left (h z : Nat) : ∀ (l : List Node) (y : Nat),
    nxtAux h l z = some y → z ∈ ringIds l := by
  intro l
  induction l with
  | nil => intro y hy; simp [nxtAux] at hy
  | cons m rest ih =>
    intro y hy
    rw [mem_ringIds_cons]
    by_cases hm : (m.nid == z) = true
    · exact Or.inl (beq_iff_eq.1 hm).symm
    · right
      cases rest with
      | nil =>
        have hmf : (m.nid == z) = false := by simpa using hm
        simp [nxtAux, hmf] at hy
      | cons m2 rest2 =>
        have hmf : (m.nid == z) = false := by simpa using hm
        simp only [nxtAux, hmf, Bool.false_eq_true, if_false] at hy
        exact ih y hy

theorem nxtAux_mem_right (h z : Nat) : ∀ (l : List Node) (y : Nat),
    nxtAux h l z = some y → y ∈ ringIds l ∨ y = h := by
  intro l
  induction l with
  | nil => intro y hy; simp [nxtAux] at hy
  | cons m rest ih =>
    intro y hy
    cases rest with
    | nil =>
      by_cases hm : (m.nid == z) = true
      · simp only [nxtAux, hm, if_true] at hy
        exact Or.inr (Option.some_inj.1 hy).symm
      · have hmf : (m.nid == z) = false := by simpa using hm
        simp [nxtAux, hmf] at hy
    | cons m2 rest2 =>
      by_cases hm : (m.nid == z) = true
      · simp only [nxtAux, hm, if_true] at hy
        left
        rw [mem_ringIds_cons, mem_ringIds_cons]
        exact Or.inr (Or.inl (Option.some_inj.1 hy).symm)
      · have hmf : (m.nid == z) = false := by simpa using hm
        simp only [nxtAux, hmf, Bool.false_eq_true, if_false] at hy
        rcases ih y hy with h1 | h1
        · left
          rw [mem_ringIds_cons]
          exact Or.inr h1
        · exact Or.inr h1

theorem nxt_mem_left {r : Ring} {z y : Nat} (h : nxt r z = some y) : z ∈ ringIds r := by
  cases r with
  | nil => simp [nxt] at h
  | cons m rest => exact nxtAux_mem_left m.nid z (m :: rest) y h

theorem nxt_mem_right {r : Ring} {z y : Nat} (h : nxt r z = some y) : y ∈ ringIds r := by
  cases r with
  | nil => simp [nxt] at h
  | cons m rest =>
    rcases nxtAux_mem_right m.nid z (m :: rest) y h with h1 | h1
    · exact h1
    · rw [h1, mem_ringIds_cons]
      exact Or.inl rfl

theorem nodup_middle_not_left {A B : List Nat} {c : Nat} (h : (A ++ c :: B).Nodup) :
    c ∉ A := by
  rcases List.nodup_append.1 h with ⟨_, _, hdisj⟩
  intro hc
  exact hdisj hc (by simp)

theorem nodup_middle_not_right {A B : List Nat} {c : Nat} (h : (A ++ c :: B).Nodup) :
    c ∉ B := by
  rcases List.nodup_append.1 h with ⟨_, hn, _⟩
  exact (List.nodup_cons.1 hn).1

theorem lastIdOf_cons (m : Node) (q : List Node) (acc : Nat) :
    (((m :: q).getLast?).map Node.nid).getD acc
      = ((q.getLast?).map Node.nid).getD m.nid := by
  cases q with
  | nil => rfl
  | cons a u =>
    rw [List.getLast?_cons_cons]
    rcases hg : (a :: u).getLast? with _ | L
    · rw [List.getLast?_eq_none_iff] at hg
      exact absurd hg (by simp)
    · simp [hg]

theorem prvAux_append (z : Nat) : ∀ (q l : List Node) (acc : Nat), z ∉ ringIds q →
    prvAux acc (q ++ l) z = prvAux (((q.getLast?).map Node.nid).getD acc) l z := by
  intro q
  induction q with
  | nil => intro l acc _; rfl
  | cons m q2 ih =>
    intro l acc hz
    rw [mem_ringIds_cons] at hz
    push_neg at hz
    have hm : (m.nid == z) = false :=
      beq_eq_false_iff_ne.2 (fun hh => hz.1 hh.symm)
    show prvAux acc (m :: (q2 ++ l)) z = _
    simp only [prvAux, hm, Bool.false_eq_true, if_false]
    rw [ih l m.nid hz.2, lastIdOf_cons]

theorem prvAux_found (acc z : Nat) (z0 : Node) (u : List Node) (hz : z0.nid = z) :
    prvAux acc (z0 :: u) z = some acc := by
  simp [prvAux, beq_iff_eq.2 hz]

theorem prvAux_not_mem (z : Nat) : ∀ (l : List Node) (acc : Nat), z ∉ ringIds l →
    prvAux acc l z = none := by
  intro l
  induction l with
  | nil => intro acc _; rfl
  | cons m rest ih =>
    intro acc hz
    rw [mem_ringIds_cons] at hz
    push_neg at hz
    have hm : (m.nid == z) = false :=
      beq_eq_false_iff_ne.2 (fun hh => hz.1 hh.symm)
    simp only [prvAux, hm, Bool.false_eq_true, if_false]
    exact ih m.nid hz.2

theorem prv_not_mem {r : Ring} {z : Nat} (hz : z ∉ ringIds r) : prv r z = none := by
  unfold prv
  cases hL : (r.getLast?).map Node.nid with
  | none => rfl
  | some lastId => exact prvAux_not_mem z r lastId hz

theorem prv_of_split (r : Ring) (q : List Node) (x0 y0 : Node) (u : List Node)
    (hr : r = q ++ x0 :: y0 :: u) (hy : y0.nid ∉ ringIds (q ++ [x0])) :
    prv r y0.nid = some x0.nid := by
  unfold prv
  cases hL : (r.getLast?).map Node.nid with
  | none =>
    rw [Option.map_eq_none'] at hL
    rw [List.getLast?_eq_none_iff] at hL
    rw [hL] at hr
    exact absurd hr.symm (by simp)
  | some lastId =>
    subst hr
    show prvAux lastId (q ++ x0 :: y0 :: u) y0.nid = some x0.nid
    have hyq : y0.nid ∉ ringIds q := by
      rw [ringIds_append] at hy
      intro hc
      exact hy (List.mem_append.2 (Or.inl hc))
    have hyx : (x0.nid == y0.nid) = false := by
      apply beq_eq_false_iff_ne.2
      intro hh
      rw [ringIds_append] at hy
      exact hy (List.mem_append.2 (Or.inr (by rw [← hh]; simp [ringIds])))
    rw [prvAux_append y0.nid q (x0 :: y0 :: u) lastId hyq]
    show prvAux _ (x0 :: y0 :: u) y0.nid = some x0.nid
    simp only [prvAux, hyx, Bool.false_eq_true, if_false]
    exact prvAux_found x0.nid y0.nid y0 u rfl

theorem prv_of_head (r : Ring) (hd : Node) (rest : List Node) (lastId : Nat)
    (hr : r = hd :: rest) (hL : (r.getLast?).map Node.nid = some lastId) :
    prv r hd.nid = some lastId := by
  unfold prv
  rw [hL, hr]
  exact prvAux_found lastId hd.nid hd rest rfl

theorem nxt_prv {r : Ring} (hnd : (ringIds r).Nodup) {x y : Nat}
    (h : nxt r x = some y) : prv r y = some x := by
  obtain ⟨q, x0, u, hr, hx0, hxq⟩ := first_occ_split x r (nxt_mem_left h)
  subst hx0
  cases u with
  | cons y0 u2 =>
    have hxy : nxt r x0.nid = some y0.nid := nxt_of_split r q x0 y0 u2 hr hxq
    rw [h] at hxy
    have hy : y = y0.nid := Option.some_inj.1 hxy
    subst hy
    apply prv_of_split r q x0 y0 u2 hr
    have hnd2 := hnd
    rw [hr, ringIds_append, ringIds_cons, ringIds_cons] at hnd2
    have hnotl := nodup_middle_not_left (A := ringIds q ++ [x0.nid]) (B := ringIds u2)
      (c := y0.nid) (by simpa using hnd2)
    have hnotl2 : y0.nid ∉ ringIds q ∧ y0.nid ≠ x0.nid := by simpa using hnotl
    intro hc
    rw [ringIds_append] at hc
    rcases List.mem_append.1 hc with hc1 | hc1
    · exact hnotl2.1 hc1
    · exact hnotl2.2 (by simpa [ringIds] using hc1)
  | nil =>
    obtain ⟨hd, hhd, hnx⟩ := nxt_of_last r q x0 hr hxq
    rw [h] at hnx
    have hy : y = hd.nid := Option.some_inj.1 hnx
    subst hy
    have hL : (r.getLast?).map Node.nid = some x0.nid := by
      rw [hr, List.getLast?_concat]
      rfl
    cases hq2 : q with
    | nil =>
      rw [hq2, List.nil_append] at hr
      have hhd2 : hd = x0 := by
        rw [hr] at hhd
        simpa using hhd.symm
      rw [hhd2]
      exact prv_of_head r x0 [] x0.nid hr hL
    | cons m q2 =>
      rw [hq2] at hr
      have hhd2 : hd = m := by
        rw [hr] at hhd
        simp only [List.cons_append, List.head?_cons] at hhd
        exact (Option.some_inj.1 hhd).symm
      rw [hhd2]
      exact prv_of_head r m (q2 ++ [x0]) x0.nid (by rw [hr]; simp) hL

theorem prv_nxt {r : Ring} (hnd : (ringIds r).Nodup) {x y : Nat}
    (hy : y ∈ ringIds r) (h : prv r y = some x) : nxt r x = some y := by
  obtain ⟨q, y0, u, hr, hy0, hyq⟩ := first_occ_split y r hy
  subst hy0
  rcases List.eq_nil_or_concat q with hq | ⟨q2, x0, hq⟩
  · subst hq
    simp only [List.nil_append] at hr
    have hrne : r ≠ [] := by rw [hr]; simp
    have hsplit : r = r.dropLast ++ [r.getLast hrne] :=
      (List.dropLast_append_getLast hrne).symm
    have hlast : (r.getLast hrne).nid ∉ ringIds r.dropLast := by
      have hnd2 := hnd
      rw [hsplit, ringIds_append, ringIds_cons] at hnd2
      exact nodup_middle_not_left (A := ringIds r.dropLast) (B := []) (c := _)
        (by simpa using hnd2)
    obtain ⟨hd, hhd, hnx2⟩ := nxt_of_last r r.dropLast (r.getLast hrne) hsplit hlast
    have hhd2 : hd = y0 := by
      rw [hr] at hhd
      simpa using hhd.symm
    rw [hhd2] at hnx2
    have hprv := nxt_prv hnd hnx2
    rw [h] at hprv
    have hx : x = (r.getLast hrne).nid := Option.some_inj.1 hprv
    rw [hx]
    exact hnx2
  · subst hq
    rw [List.concat_eq_append] at hr hyq
    have hx0q2 : x0.nid ∉ ringIds q2 := by
      have hnd2 := hnd
      rw [hr, List.append_assoc, List.singleton_append, ringIds_append, ringIds_cons,
        ringIds_cons] at hnd2
      exact nodup_middle_not_left (A := ringIds q2) (c := x0.nid) hnd2
    have hnx := nxt_of_split r q2 x0 y0 u (by rw [hr]; simp) hx0q2
    have hprv := nxt_prv hnd hnx
    rw [h] at hprv
    have hx : x = x0.nid := Option.some_inj.1 hprv
    rw [hx]
    exact hnx

theorem nxt_inj {r : Ring} (hnd : (ringIds r).Nodup) {x z c : Nat}
    (h1 : nxt r x = some c) (h2 : nxt r z = some c) : x = z := by
  have p1 := nxt_prv hnd h1
  have p2 := nxt_prv hnd h2
  rw [p1] at p2
  exact Option.some_inj.1 p2

theorem nxt_not_mem {r : Ring} {z : Nat} (hz : z ∉ ringIds r) : nxt r z = none := by
  cases r with
  | nil => rfl
  | cons m rest =>
    show nxtAux m.nid (m :: rest) z = none
    exact nxtAux_not_mem m.nid z (m :: rest) hz

theorem mem_ringIds_append {z : Nat} {a b : Ring} :
    z ∈ ringIds (a ++ b) ↔ z ∈ ringIds a ∨ z ∈ ringIds b := by
  rw [ringIds_append, List.mem_append]

theorem nxt_insert (r : Ring) (tId : Nat) (w : Node) (ht : tId ∈ ringIds r)
    (hw : w.nid ∉ ringIds r) (hnd : (ringIds r).Nodup) (z : Nat) (hz : z ≠ w.nid) :
    nxt (ringInsertBefore r tId w) z =
      if nxt r z = some tId then some w.nid else nxt r z := by
  obtain ⟨p, s, t0, hr, ht0, hnp, hins⟩ := ringInsertBefore_split tId w r ht
  rw [hins]
  have hnd' : (ringIds p ++ tId :: ringIds s).Nodup := by
    rw [hr, ringIds_append, ringIds_cons, ht0] at hnd
    exact hnd
  have hts : tId ∉ ringIds s := nodup_middle_not_right hnd'
  have hdisj : ∀ c, c ∈ ringIds s → c ∉ ringIds p := by
    intro c hcs hcp
    rcases List.nodup_append.1 hnd' with ⟨_, _, hdj⟩
    exact hdj hcp (List.mem_cons_of_mem _ hcs)
  have hwp : w.nid ∉ ringIds p := fun hc =>
    hw (by rw [hr, mem_ringIds_append]; exact Or.inl hc)
  have hws : w.nid ∉ ringIds s := fun hc =>
    hw (by rw [hr, mem_ringIds_append, mem_ringIds_cons, ht0]; exact Or.inr (Or.inr hc))
  have hwt : w.nid ≠ tId := fun hc => hw (by rw [hc]; exact ht)
  by_cases hzr : z ∈ ringIds r
  · rw [hr, mem_ringIds_append, mem_ringIds_cons, ht0] at hzr
    rcases hzr with hzp | hzt | hzs
    · -- z occurs inside the prefix p
      obtain ⟨q, z0, u, hp, hz0, hzq⟩ := first_occ_split z p hzp
      subst hz0
      cases u with
      | cons a u2 =>
        have h1 : nxt r z0.nid = some a.nid := by
          refine nxt_of_split r q z0 a (u2 ++ t0 :: s) ?_ hzq
          rw [hr, hp]
          simp
        have h2 : nxt (p ++ w :: t0 :: s) z0.nid = some a.nid := by
          refine nxt_of_split _ q z0 a (u2 ++ w :: t0 :: s) ?_ hzq
          rw [hp]
          simp
        have hat : a.nid ≠ tId := fun hc => hnp (by
          rw [hp, mem_ringIds_append, mem_ringIds_cons, mem_ringIds_cons]
          exact Or.inr (Or.inr (Or.inl hc.symm)))
        rw [h1, h2, if_neg (fun hc => hat (Option.some_inj.1 hc))]
      | nil =>
        have h1 : nxt r z0.nid = some t0.nid := by
          refine nxt_of_split r q z0 t0 s ?_ hzq
          rw [hr, hp]
          simp
        have h2 : nxt (p ++ w :: t0 :: s) z0.nid = some w.nid := by
          refine nxt_of_split _ q z0 w (t0 :: s) ?_ hzq
          rw [hp]
          simp
        rw [h1, h2, ht0, if_pos rfl]
    · -- z is the target identity itself
      subst hzt
      rw [← ht0] at hnp hts hwt ⊢
      cases s with
      | cons a s2 =>
        have h1 : nxt r t0.nid = some a.nid :=
          nxt_of_split r p t0 a s2 hr hnp
        have h2 : nxt (p ++ w :: t0 :: a :: s2) t0.nid = some a.nid := by
          refine nxt_of_split _ (p ++ [w]) t0 a s2 (by simp) ?_
          rw [mem_ringIds_append]
          rintro (hc | hc)
          · exact hnp hc
          · rcases mem_ringIds_cons.1 hc with hc2 | hc2
            · exact hwt hc2.symm
            · simp [ringIds] at hc2
        have hat : a.nid ≠ t0.nid := fun hc => hts (by
          rw [mem_ringIds_cons]
          exact Or.inl hc.symm)
        rw [h1, h2, if_neg (fun hc => hat (Option.some_inj.1 hc))]
      | nil =>
        obtain ⟨hd, hhd, h1⟩ := nxt_of_last r p t0 hr hnp
        obtain ⟨hd2, hhd2, h2⟩ := nxt_of_last (p ++ w :: [t0]) (p ++ [w]) t0
          (by simp) (by
            rw [mem_ringIds_append]
            rintro (hc | hc)
            · exact hnp hc
            · rcases mem_ringIds_cons.1 hc with hc2 | hc2
              · exact hwt hc2.symm
              · simp [ringIds] at hc2)
        cases p with
        | nil =>
          have hhd' : hd = t0 := by
            rw [hr] at hhd
            simpa using hhd.symm
          have hhd2' : hd2 = w := by simpa using hhd2.symm
          rw [h2, hhd2', h1, hhd', if_pos rfl]
        | cons m p2 =>
          have hhd' : hd = m := by
            rw [hr] at hhd
            simpa using hhd.symm
          have hhd2' : hd2 = m := by simpa using hhd2.symm
          have hmt : m.nid ≠ t0.nid := fun hc => hnp (by
            rw [mem_ringIds_cons]
            exact Or.inl hc.symm)
          rw [h2, hhd2', h1, hhd', if_neg (fun hc => hmt (Option.some_inj.1 hc))]
    · -- z occurs inside the suffix s
      obtain ⟨q, z0, u, hs, hz0, hzq⟩ := first_occ_split z s hzs
      subst hz0
      have hzs' : z0.nid ∈ ringIds s := hzs
      have hzp : z0.nid ∉ ringIds p := hdisj _ hzs'
      have hzt : z0.nid ≠ tId := fun hc => hts (hc ▸ hzs')
      have hpre : z0.nid ∉ ringIds (p ++ t0 :: q) := by
        rw [mem_ringIds_append, mem_ringIds_cons, ht0]
        rintro (hc | hc | hc)
        · exact hzp hc
        · exact hzt hc
        · exact hzq hc
      have hpre2 : z0.nid ∉ ringIds (p ++ w :: t0 :: q) := by
        rw [mem_ringIds_append, mem_ringIds_cons, mem_ringIds_cons, ht0]
        rintro (hc | hc | hc | hc)
        · exact hzp hc
        · exact hz hc
        · exact hzt hc
        · exact hzq hc
      cases u with
      | cons a u2 =>
        have h1 : nxt r z0.nid = some a.nid := by
          refine nxt_of_split r (p ++ t0 :: q) z0 a u2 ?_ hpre
          rw [hr, hs]
          simp
        have h2 : nxt (p ++ w :: t0 :: s) z0.nid = some a.nid := by
          refine nxt_of_split _ (p ++ w :: t0 :: q) z0 a u2 ?_ hpre2
          rw [hs]
          simp
        have hat : a.nid ≠ tId := fun hc => hts (by
          rw [hs, mem_ringIds_append, mem_ringIds_cons, mem_ringIds_cons]
          exact Or.inr (Or.inr (Or.inl hc.symm)))
        rw [h1, h2, if_neg (fun hc => hat (Option.some_inj.1 hc))]
      | nil =>
        obtain ⟨hd, hhd, h1⟩ := nxt_of_last r (p ++ t0 :: q) z0
          (by rw [hr, hs]; simp) hpre
        obtain ⟨hd2, hhd2, h2⟩ := nxt_of_last (p ++ w :: t0 :: s) (p ++ w :: t0 :: q) z0
          (by rw [hs]; simp) hpre2
        cases p with
        | nil =>
          have hhd' : hd = t0 := by
            rw [hr] at hhd
            simpa using hhd.symm
          have hhd2' : hd2 = w := by simpa using hhd2.symm
          rw [h2, hhd2', h1, hhd', ht0, if_pos rfl]
        | cons m p2 =>
          have hhd' : hd = m := by
            rw [hr] at hhd
            simpa using hhd.symm
          have hhd2' : hd2 = m := by simpa using hhd2.symm
          have hmt : m.nid ≠ tId := fun hc => hnp (by
            rw [mem_ringIds_cons]
            exact Or.inl hc.symm)
          rw [h2, hhd2', h1, hhd', if_neg (fun hc => hmt (Option.some_inj.1 hc))]
  · have h1 : nxt r z = none := nxt_not_mem hzr
    have h2 : nxt (p ++ w :: t0 :: s) z = none := by
      apply nxt_not_mem
      rw [mem_ringIds_append, mem_ringIds_cons, mem_ringIds_cons, ht0]
      rintro (hc | hc | hc | hc)
      · exact hzr (by rw [hr, mem_ringIds_append]; exact Or.inl hc)
      · exact hz hc
      · exact hzr (by rw [hc, hr]; rw [mem_ringIds_append, mem_ringIds_cons, ht0]; exact Or.inr (Or.inl rfl))
      · exact hzr (by rw [hr, mem_ringIds_append, mem_ringIds_cons]; exact Or.inr (Or.inr hc))
    rw [h1, h2, if_neg (by simp)]

theorem prv_insert (r : Ring) (tId : Nat) (w : Node) (ht : tId ∈ ringIds r)
    (hw : w.nid ∉ ringIds r) (hnd : (ringIds r).Nodup) (z : Nat) (hz : z ≠ w.nid) :
    prv (ringInsertBefore r tId w) z =
      if z = tId then some w.nid else prv r z := by
  obtain ⟨p, s, t0, hr, ht0, hnp, hins⟩ := ringInsertBefore_split tId w r ht
  rw [hins]
  have hnd' : (ringIds p ++ tId :: ringIds s).Nodup := by
    rw [hr, ringIds_append, ringIds_cons, ht0] at hnd
    exact hnd
  have hts : tId ∉ ringIds s := nodup_middle_not_right hnd'
  have hdisj : ∀ c, c ∈ ringIds s → c ∉ ringIds p := by
    intro c hcs hcp
    rcases List.nodup_append.1 hnd' with ⟨_, _, hdj⟩
    exact hdj hcp (List.mem_cons_of_mem _ hcs)
  have hwt : w.nid ≠ tId := fun hc => hw (by rw [hc]; exact ht)
  by_cases hzt : z = tId
  · subst hzt
    rw [if_pos rfl, ← ht0]
    refine prv_of_split _ p w t0 s rfl ?_
    rw [mem_ringIds_append, mem_ringIds_cons]
    rintro (hc | hc | hc)
    · exact hnp (ht0 ▸ hc)
    · exact hwt (ht0 ▸ hc).symm
    · simp [ringIds] at hc
  · rw [if_neg hzt]
    by_cases hzr : z ∈ ringIds r
    · rw [hr, mem_ringIds_append, mem_ringIds_cons, ht0] at hzr
      rcases hzr with hzp | hzt2 | hzs
      · -- z occurs inside the prefix p
        obtain ⟨q, z0, u, hp, hz0, hzq⟩ := first_occ_split z p hzp
        subst hz0
        rcases List.eq_nil_or_concat q with hq | ⟨q2, x0, hq⟩
        · -- z0 is the head of p, hence of both rings: predecessor is the last
          subst hq
          simp only [List.nil_append] at hp
          cases hL : ((t0 :: s).getLast?).map Node.nid with
          | none => simp at hL
          | some lastId =>
            have h1 : prv r z0.nid = some lastId := by
              refine prv_of_head r z0 (u ++ t0 :: s) lastId (by rw [hr, hp]; rfl) ?_
              rw [hr, hp]
              show (((z0 :: u) ++ t0 :: s).getLast?).map Node.nid = some lastId
              rw [List.getLast?_append_cons]
              exact hL
            have h2 : prv (p ++ w :: t0 :: s) z0.nid = some lastId := by
              refine prv_of_head _ z0 (u ++ w :: t0 :: s) lastId (by rw [hp]; rfl) ?_
              rw [hp]
              show (((z0 :: u) ++ w :: t0 :: s).getLast?).map Node.nid = some lastId
              rw [List.getLast?_append_cons, List.getLast?_cons_cons]
              exact hL
            rw [h1, h2]
        · subst hq
          rw [List.concat_eq_append] at hp hzq
          have hzq2 : z0.nid ∉ ringIds (q2 ++ [x0]) := hzq
          have h1 : prv r z0.nid = some x0.nid := by
            refine prv_of_split r q2 x0 z0 (u ++ t0 :: s) ?_ hzq2
            rw [hr, hp]
            simp
          have h2 : prv (p ++ w :: t0 :: s) z0.nid = some x0.nid := by
            refine prv_of_split _ q2 x0 z0 (u ++ w :: t0 :: s) ?_ hzq2
            rw [hp]
            simp
          rw [h1, h2]
      · exact absurd hzt2 hzt
      · -- z occurs inside the suffix s
        obtain ⟨q, z0, u, hs, hz0, hzq⟩ := first_occ_split z s hzs
        subst hz0
        have hzs' : z0.nid ∈ ringIds s := hzs
        have hzp : z0.nid ∉ ringIds p := hdisj _ hzs'
        rcases List.eq_nil_or_concat q with hq | ⟨q2, x0, hq⟩
        · -- z0 directly follows t0: its predecessor is t0 in both rings
          subst hq
          simp only [List.nil_append] at hs
          have h1 : prv r z0.nid = some t0.nid := by
            refine prv_of_split r p t0 z0 u (by rw [hr, hs]) ?_
            rw [mem_ringIds_append, mem_ringIds_cons, ht0]
            rintro (hc | hc | hc)
            · exact hzp hc
            · exact hzt hc
            · simp [ringIds] at hc
          have h2 : prv (p ++ w :: t0 :: s) z0.nid = some t0.nid := by
            refine prv_of_split _ (p ++ [w]) t0 z0 u (by rw [hs]; simp) ?_
            intro hc
            rcases mem_ringIds_append.1 hc with hc | hc
            · rcases mem_ringIds_append.1 hc with hc | hc
              · exact hzp hc
              · rcases mem_ringIds_cons.1 hc with hc | hc
                · exact hz hc
                · simp [ringIds] at hc
            · rcases mem_ringIds_cons.1 hc with hc | hc
              · exact hzt (by rw [hc, ht0])
              · simp [ringIds] at hc
          rw [h1, h2]
        · subst hq
          rw [List.concat_eq_append] at hs hzq
          have hx0s : x0.nid ∈ ringIds s := by
            rw [hs, mem_ringIds_append, mem_ringIds_append]
            exact Or.inl (Or.inr (by simp [ringIds]))
          have hpre : z0.nid ∉ ringIds ((p ++ t0 :: q2) ++ [x0]) := by
            rw [mem_ringIds_append, mem_ringIds_append, mem_ringIds_cons, ht0]
            rintro (hc | hc)
            · rcases hc with hc | hc | hc
              · exact hzp hc
              · exact hzt hc
              · exact hzq (by rw [mem_ringIds_append]; exact Or.inl hc)
            · exact hzq (by rw [mem_ringIds_append]; exact Or.inr hc)
          have hpre2 : z0.nid ∉ ringIds ((p ++ w :: t0 :: q2) ++ [x0]) := by
            rw [mem_ringIds_append, mem_ringIds_append, mem_ringIds_cons, mem_ringIds_cons, ht0]
            rintro (hc | hc)
            · rcases hc with hc | hc | hc | hc
              · exact hzp hc
              · exact hz hc
              · exact hzt hc
              · exact hzq (by rw [mem_ringIds_append]; exact Or.inl hc)
            · exact hzq (by rw [mem_ringIds_append]; exact Or.inr hc)
          have h1 : prv r z0.nid = some x0.nid := by
            refine prv_of_split r (p ++ t0 :: q2) x0 z0 u ?_ hpre
            rw [hr, hs]
            simp
          have h2 : prv (p ++ w :: t0 :: s) z0.nid = some x0.nid := by
            refine prv_of_split _ (p ++ w :: t0 :: q2) x0 z0 u ?_ hpre2
            rw [hs]
            simp
          rw [h1, h2]
    · have h1 : prv r z = none := prv_not_mem hzr
      have h2 : prv (p ++ w :: t0 :: s) z = none := by
        apply prv_not_mem
        rw [mem_ringIds_append, mem_ringIds_cons, mem_ringIds_cons, ht0]
        rintro (hc | hc | hc | hc)
        · exact hzr (by rw [hr, mem_ringIds_append]; exact Or.inl hc)
        · exact hz hc
        · exact hzt hc
        · exact hzr (by rw [hr, mem_ringIds_append, mem_ringIds_cons]; exact Or.inr (Or.inr hc))
      rw [h1, h2]

theorem getD_set_self {α : Type} (a d : α) :
    ∀ (l : List α) (i : Nat), i < l.length → (l.set i a).getD i d = a := by
  intro l
  induction l with
  | nil => intro i h; simp at h
  | cons x xs ih =>
    intro i h
    cases i with
    | zero => rfl
    | succ k =>
      show (xs.set k a).getD k d = a
      exact ih k (by simpa using h)

theorem getD_set_ne {α : Type} (a d : α) :
    ∀ (l : List α) (i j : Nat), i ≠ j → (l.set i a).getD j d = l.getD j d := by
  intro l
  induction l with
  | nil => intro i j _; cases i <;> rfl
  | cons x xs ih =>
    intro i j hne
    cases i with
    | zero =>
      cases j with
      | zero => exact absurd rfl hne
      | succ k => rfl
    | succ m =>
      cases j with
      | zero => rfl
      | succ k =>
        show (xs.set m a).getD k d = xs.getD k d
        exact ih m k (fun hc => hne (by rw [hc]))

theorem set_oob {α : Type} (a : α) :
    ∀ (l : List α) (i : Nat), l.length ≤ i → l.set i a = l := by
  intro l
  induction l with
  | nil => intro i _; cases i <;> rfl
  | cons x xs ih =>
    intro i h
    cases i with
    | zero => simp at h
    | succ k =>
      show x :: xs.set k a = x :: xs
      rw [ih k (by simpa using h)]

theorem getD_oob {α : Type} (d : α) :
    ∀ (l : List α) (i : Nat), l.length ≤ i → l.getD i d = d := by
  intro l
  induction l with
  | nil => intro i _; cases i <;> rfl
  | cons x xs ih =>
    intro i h
    cases i with
    | zero => simp at h
    | succ k =>
      show xs.getD k d = d
      exact ih k (by simpa using h)

theorem ringOf_insertNode_other (st : LState) (i b : Nat) (p : Pt) (j : Nat)
    (hne : j ≠ i) : ringOf (insertNode st i b p).1 j = ringOf st j := by
  show (st.rings.set i _).getD j [] = st.rings.getD j []
  exact getD_set_ne _ _ st.rings i j (fun hc => hne hc.symm)

theorem ringOf_insertNode_self (st : LState) (i b : Nat) (p : Pt) :
    ringOf (insertNode st i b p).1 i
      = ringInsertBefore (ringOf st i) b ⟨st.fresh, p⟩ := by
  by_cases h : i < st.rings.length
  · exact getD_set_self _ _ st.rings i h
  · have hlen : st.rings.length ≤ i := Nat.le_of_not_lt h
    show (st.rings.set i _).getD i [] = _
    rw [set_oob _ st.rings i hlen]
    have h1 : st.rings.getD i ([] : Ring) = [] := getD_oob _ st.rings i hlen
    show st.rings.getD i [] = ringInsertBefore (st.rings.getD i []) b _
    rw [h1]
    rfl

theorem wfr_ring {st : LState} (h : WFR st) (j : Nat) :
    (ringIds (ringOf st j)).Nodup ∧ ∀ id ∈ ringIds (ringOf st j), id < st.fresh := by
  by_cases hj : j < st.rings.length
  · have hmem : st.rings.getD j [] ∈ st.rings := by
      have : st.rings.getD j [] = st.rings[j] := List.getD_eq_getElem st.rings [] hj
      rw [this]
      exact List.getElem_mem hj
    exact h _ hmem
  · have h1 : ringOf st j = [] := getD_oob _ st.rings j (Nat.le_of_not_lt hj)
    rw [h1]
    exact ⟨List.nodup_nil, by intro id hid; simp [ringIds] at hid⟩

theorem ringIds_insert_perm (r : Ring) (tId : Nat) (w : Node) (ht : tId ∈ ringIds r) :
    (ringIds (ringInsertBefore r tId w)).Perm (w.nid :: ringIds r) := by
  obtain ⟨p, s, t0, hr, ht0, hnp, hins⟩ := ringInsertBefore_split tId w r ht
  rw [hins, hr, ringIds_append, ringIds_append, ringIds_cons, ringIds_cons]
  exact List.perm_middle

theorem WFR_insertNode (st : LState) (i b : Nat) (p : Pt) (h : WFR st) :
    WFR (insertNode st i b p).1 := by
  intro r' hr'
  have hfresh : (insertNode st i b p).1.fresh = st.fresh + 1 := rfl
  rcases List.mem_or_eq_of_mem_set hr' with hold | hnew
  · obtain ⟨hnd, hb⟩ := h _ hold
    exact ⟨hnd, fun id hid => by rw [hfresh]; exact Nat.lt_succ_of_lt (hb id hid)⟩
  · have hnew2 : r' = ringInsertBefore (ringOf st i) b ⟨st.fresh, p⟩ := hnew
    obtain ⟨hnd, hb⟩ := wfr_ring h i
    by_cases ht : b ∈ ringIds (ringOf st i)
    · have hperm := ringIds_insert_perm (ringOf st i) b ⟨st.fresh, p⟩ ht
      have hfnot : st.fresh ∉ ringIds (ringOf st i) := fun hc =>
        absurd (hb _ hc) (by omega)
      constructor
      · rw [hnew2]
        exact hperm.nodup_iff.2 (List.nodup_cons.2 ⟨hfnot, hnd⟩)
      · intro id hid
        rw [hnew2] at hid
        have hm := hperm.mem_iff.1 hid
        rw [hfresh]
        rcases List.mem_cons.1 hm with hc | hc
        · rw [hc]
          exact Nat.lt_succ_self st.fresh
        · exact Nat.lt_succ_of_lt (hb _ hc)
    · rw [hnew2, ringInsertBefore_not_mem b ⟨st.fresh, p⟩ _ ht]
      exact ⟨hnd, fun id hid => by rw [hfresh]; exact Nat.lt_succ_of_lt (hb id hid)⟩

theorem adjacentB_congr_at {st st' : LState} (x y : LPI)
    (h : ringOf st' x.poly = ringOf st x.poly) :
    adjacentB st' x y = adjacentB st x y := by
  have h1 : nextIt st' x = nextIt st x := by
    unfold nextIt
    rw [h]
  have h2 : prevIt st' x = prevIt st x := by
    unfold prevIt
    rw [h]
  unfold adjacentB
  rw [h1, h2]

theorem adjacentB_insertNode_false (st : LState) (i bId : Nat) (p : Pt) (x y : LPI)
    (hW : WFR st) (hx : x.node < st.fresh) (hy : y.node < st.fresh)
    (hne : (x == y) = false)
    (h : adjacentB st x y = false) : adjacentB (insertNode st i bId p).1 x y = false := by
  by_cases hpoly : x.poly = i
  · by_cases hbm : bId ∈ ringIds (ringOf st i)
    · obtain ⟨hnd, hbnd⟩ := wfr_ring hW i
      have hfr : (⟨st.fresh, p⟩ : Node).nid ∉ ringIds (ringOf st i) := fun hc =>
        absurd (hbnd _ hc) (by simp)
      have hro : ringOf (insertNode st i bId p).1 x.poly
          = ringInsertBefore (ringOf st i) bId ⟨st.fresh, p⟩ := by
        rw [hpoly, ringOf_insertNode_self]
      have hroSt : ringOf st x.poly = ringOf st i := by rw [hpoly]
      have hxy : x ≠ y := fun hc => by
        rw [hc] at hne
        simp at hne
      by_contra hT
      have hT' : adjacentB (insertNode st i bId p).1 x y = true := by
        cases hh : adjacentB (insertNode st i bId p).1 x y
        · exact absurd hh hT
        · rfl
      rw [adjacentB, Bool.and_eq_true, Bool.or_eq_true] at hT'
      obtain ⟨hpq, hor⟩ := hT'
      have hgoal : adjacentB st x y = true := by
        rw [adjacentB, Bool.and_eq_true, Bool.or_eq_true]
        refine ⟨hpq, ?_⟩
        rcases hor with hn | hn
        · left
          unfold nextIt at hn ⊢
          rw [hro] at hn
          rw [hroSt]
          cases hnx : nxt (ringInsertBefore (ringOf st i) bId ⟨st.fresh, p⟩) x.node with
          | none =>
            rw [hnx] at hn
            exact absurd (beq_iff_eq.1 hn) hxy
          | some c =>
            rw [hnx] at hn
            have hcy : (⟨x.poly, c⟩ : LPI) = y := beq_iff_eq.1 hn
            have hcn : c = y.node := by rw [← hcy]
            rw [nxt_insert (ringOf st i) bId ⟨st.fresh, p⟩ hbm hfr hnd x.node
              (fun hcc => by rw [hcc] at hx; simp at hx)] at hnx
            by_cases hif : nxt (ringOf st i) x.node = some bId
            · rw [if_pos hif] at hnx
              have hfc : st.fresh = c := Option.some_inj.1 hnx
              omega
            · rw [if_neg hif] at hnx
              rw [hnx]
              exact hn
        · right
          unfold prevIt at hn ⊢
          rw [hro] at hn
          rw [hroSt]
          cases hnx : prv (ringInsertBefore (ringOf st i) bId ⟨st.fresh, p⟩) x.node with
          | none =>
            rw [hnx] at hn
            exact absurd (beq_iff_eq.1 hn) hxy
          | some c =>
            rw [hnx] at hn
            have hcy : (⟨x.poly, c⟩ : LPI) = y := beq_iff_eq.1 hn
            have hcn : c = y.node := by rw [← hcy]
            rw [prv_insert (ringOf st i) bId ⟨st.fresh, p⟩ hbm hfr hnd x.node
              (fun hcc => by rw [hcc] at hx; simp at hx)] at hnx
            by_cases hif : x.node = bId
            · rw [if_pos hif] at hnx
              have hfc : st.fresh = c := Option.some_inj.1 hnx
              omega
            · rw [if_neg hif] at hnx
              rw [hnx]
              exact hn
      rw [h] at hgoal
      exact Bool.false_ne_true hgoal
    · have hro : ringOf (insertNode st i bId p).1 x.poly = ringOf st x.poly := by
        rw [hpoly, ringOf_insertNode_self, ringInsertBefore_not_mem _ _ _ hbm]
      rw [adjacentB_congr_at x y hro]
      exact h
  · have hro : ringOf (insertNode st i bId p).1 x.poly = ringOf st x.poly :=
      ringOf_insertNode_other st i bId p x.poly hpoly
    rw [adjacentB_congr_at x y hro]
    exact h

theorem linkOkB_insertNode (st : LState) (i b : Nat) (p : Pt) (l : Link)
    (hW : WFR st) (ha : l.a.node < st.fresh) (hb : l.b.node < st.fresh)
    (h : linkOkB st l = true) : linkOkB (insertNode st i b p).1 l = true := by
  rw [linkOkB, Bool.and_eq_true] at h ⊢
  obtain ⟨h1, h2⟩ := h
  refine ⟨h1, ?_⟩
  rw [Bool.not_eq_true'] at h1 h2 ⊢
  exact adjacentB_insertNode_false st i b p l.a l.b hW ha hb h1 h2

theorem linkOkB_congr {st st' : LState} (h : st'.rings = st.rings) (l : Link) :
    linkOkB st' l = linkOkB st l := by
  have hro : ringOf st' l.a.poly = ringOf st l.a.poly := by
    unfold ringOf
    rw [h]
  unfold linkOkB
  rw [adjacentB_congr_at l.a l.b hro]

theorem addProximityLink_fresh (st : LState) (f t : LPI) (d : Int) :
    (addProximityLink st f t d).fresh = st.fresh := by
  unfold addProximityLink
  cases h : st.links.find? (fun m => linkEqB m ⟨f, t, d⟩) <;>
    simp [h, addToPoint2LinkMap]

theorem addPL_c9 (st : LState) (f t : LPI) (d : Int)
    (hok : linkOkB st ⟨f, t, d⟩ = true) (hf : f.node < st.fresh) (ht : t.node < st.fresh)
    (h : C9Inv st) : C9Inv (addProximityLink st f t d) := by
  obtain ⟨hW, hL⟩ := h
  have hrings := addProximityLink_rings st f t d
  have hfresh := addProximityLink_fresh st f t d
  constructor
  · intro r hr
    rw [hrings] at hr
    refine ⟨(hW r hr).1, fun id hid => ?_⟩
    rw [hfresh]
    exact (hW r hr).2 id hid
  · intro l hl
    rw [addProximityLink_links] at hl
    have hcg := linkOkB_congr hrings l
    cases hfind : st.links.find? (fun m => linkEqB m ⟨f, t, d⟩) with
    | some s0 =>
      rw [hfind] at hl
      obtain ⟨h1, h2, h3⟩ := hL l hl
      exact ⟨by rw [hcg]; exact h1, by rw [hfresh]; exact h2, by rw [hfresh]; exact h3⟩
    | none =>
      rw [hfind] at hl
      rcases List.mem_append.1 hl with hold | hnew
      · obtain ⟨h1, h2, h3⟩ := hL l hold
        exact ⟨by rw [hcg]; exact h1, by rw [hfresh]; exact h2, by rw [hfresh]; exact h3⟩
      · have hl2 : l = ⟨f, t, d⟩ := by simpa using hnew
        subst hl2
        exact ⟨by rw [hcg]; exact hok, by rw [hfresh]; exact hf, by rw [hfresh]; exact ht⟩

theorem addPLE_c9 (st : LState) (f t : LPI) (d : Int) (h : C9Inv st) :
    C9Inv (addProximityLinkEndings st f t d) := by
  obtain ⟨hW, hL⟩ := h
  constructor
  · intro r hr
    rw [addPLE_rings] at hr
    refine ⟨(hW r hr).1, fun id hid => ?_⟩
    rw [addPLE_fresh]
    exact (hW r hr).2 id hid
  · intro l hl
    rw [addPLE_links] at hl
    obtain ⟨h1, h2, h3⟩ := hL l hl
    exact ⟨by rw [linkOkB_congr (addPLE_rings st f t d) l]; exact h1,
      by rw [addPLE_fresh]; exact h2, by rw [addPLE_fresh]; exact h3⟩

theorem insertNode_c9 (st : LState) (i b : Nat) (p : Pt) (h : C9Inv st) :
    C9Inv (insertNode st i b p).1 := by
  obtain ⟨hW, hL⟩ := h
  refine ⟨WFR_insertNode st i b p hW, ?_⟩
  intro l hl
  rw [insertNode_fst_links] at hl
  obtain ⟨h1, h2, h3⟩ := hL l hl
  refine ⟨linkOkB_insertNode st i b p l hW h2 h3 h1, ?_, ?_⟩
  · rw [insertNode_fst_fresh]
    exact Nat.lt_succ_of_lt h2
  · rw [insertNode_fst_fresh]
    exact Nat.lt_succ_of_lt h3

theorem chainR_nil (r : Ring) : ChainR r [] := by
  simp [ChainR]

theorem chainR_single (r : Ring) (x : Nat) : ChainR r [x] := by
  simp [ChainR]

theorem chainR_cons_cons (r : Ring) (x y : Nat) (rest : List Nat) :
    ChainR r (x :: y :: rest) ↔ (nxt r x = some y ∧ ChainR r (y :: rest)) := by
  simp [ChainR]

theorem chainR_suffix (r : Ring) (hnd : (ringIds r).Nodup) :
    ∀ (q p : List Node), r = p ++ q → ChainR r (ringIds q) := by
  intro q
  induction q with
  | nil => intro p _; exact chainR_nil r
  | cons x q2 ih =>
    intro p hr
    cases q2 with
    | nil => exact chainR_single r x.nid
    | cons y u =>
      rw [ringIds_cons, ringIds_cons, chainR_cons_cons]
      constructor
      · refine nxt_of_split r p x y u hr ?_
        have hnd2 := hnd
        rw [hr, ringIds_append, ringIds_cons] at hnd2
        exact nodup_middle_not_left hnd2
      · rw [← ringIds_cons]
        exact ih (p ++ [x]) (by rw [hr]; simp)

theorem nxt_last_head (r : Ring) (hnd : (ringIds r).Nodup) (lastId hId : Nat)
    (hL : (r.getLast?).map Node.nid = some lastId)
    (hH : (r.head?).map Node.nid = some hId) :
    nxt r lastId = some hId := by
  have hrne : r ≠ [] := by
    intro hc
    rw [hc] at hL
    simp at hL
  have hsplit : r = r.dropLast ++ [r.getLast hrne] :=
    (List.dropLast_append_getLast hrne).symm
  have hlast : (r.getLast hrne).nid ∉ ringIds r.dropLast := by
    have hnd2 := hnd
    rw [hsplit, ringIds_append, ringIds_cons] at hnd2
    exact nodup_middle_not_left (A := ringIds r.dropLast) (B := []) (c := _)
      (by simpa using hnd2)
  obtain ⟨hd, hhd, hnx⟩ := nxt_of_last r r.dropLast (r.getLast hrne) hsplit hlast
  have hlid : (r.getLast hrne).nid = lastId := by
    rw [List.getLast?_eq_getLast r hrne] at hL
    simpa using hL
  have hhid : hd.nid = hId := by
    rw [hhd] at hH
    simpa using hH
  rw [hlid, hhid] at hnx
  exact hnx

theorem ringIds_drop (r : Ring) (k : Nat) :
    ringIds (r.drop k) = (ringIds r).drop k := by
  simp [ringIds, List.map_drop]

theorem chainR_insert_avoid (r : Ring) (tId : Nat) (w : Node) (ht : tId ∈ ringIds r)
    (hw : w.nid ∉ ringIds r) (hnd : (ringIds r).Nodup) :
    ∀ (ys : List Nat) (x : Nat), ChainR r (x :: ys) → tId ∉ ys →
      ChainR (ringInsertBefore r tId w) (x :: ys) := by
  intro ys
  induction ys with
  | nil => intro x _ _; exact chainR_single _ x
  | cons y ys2 ih =>
    intro x hch hnt
    rw [chainR_cons_cons] at hch
    obtain ⟨hedge, hrest⟩ := hch
    rw [chainR_cons_cons]
    constructor
    · have hx := nxt_mem_left hedge
      have hxw : x ≠ w.nid := fun hc => hw (hc ▸ hx)
      rw [nxt_insert r tId w ht hw hnd x hxw]
      rw [if_neg (fun hc => by
        rw [hedge] at hc
        exact hnt (by rw [← Option.some_inj.1 hc]; exact List.mem_cons_self y ys2))]
      exact hedge
    · exact ih y hrest (fun hc => hnt (List.mem_cons_of_mem _ hc))

theorem linkOk_of_neq (st : LState) (f : LPI) (j tn : Nat) (d : Int)
    (hnode : f.poly = j → f.node ≠ tn)
    (hnx : f.poly = j → nextIt st f ≠ (⟨j, tn⟩ : LPI))
    (hpv : f.poly = j → prevIt st f ≠ (⟨j, tn⟩ : LPI)) :
    linkOkB st ⟨f, ⟨j, tn⟩, d⟩ = true := by
  rw [linkOkB, Bool.and_eq_true, Bool.not_eq_true', Bool.not_eq_true']
  by_cases hpj : f.poly = j
  · refine ⟨?_, ?_⟩
    · rw [beq_eq_false_iff_ne]
      intro hc
      exact hnode hpj (congrArg LPI.node hc)
    · rw [adjacentB]
      have h1 : (nextIt st f == (⟨j, tn⟩ : LPI)) = false :=
        beq_eq_false_iff_ne.2 (hnx hpj)
      have h2 : (prevIt st f == (⟨j, tn⟩ : LPI)) = false :=
        beq_eq_false_iff_ne.2 (hpv hpj)
      show (f.poly == j && (nextIt st f == (⟨j, tn⟩ : LPI) || prevIt st f == (⟨j, tn⟩ : LPI))) = false
      rw [h1, h2]
      simp
  · refine ⟨?_, ?_⟩
    · rw [beq_eq_false_iff_ne]
      intro hc
      exact hpj (congrArg LPI.poly hc)
    · rw [adjacentB]
      show (f.poly == j && (nextIt st f == (⟨j, tn⟩ : LPI) || prevIt st f == (⟨j, tn⟩ : LPI))) = false
      rw [beq_eq_false_iff_ne.2 hpj]
      simp

theorem scanSkip_false_elim (st : LState) (fromIt : LPI) (j lastId itId : Nat)
    (hpj : fromIt.poly = j)
    (hsk : scanSkip st fromIt j lastId itId = false) :
    fromIt.node ≠ lastId ∧ fromIt.node ≠ itId ∧
      (prevIt st fromIt).node ≠ itId ∧ (nextIt st fromIt).node ≠ lastId := by
  rw [scanSkip] at hsk
  have hpjb : (fromIt.poly == j) = true := beq_iff_eq.2 hpj
  rw [hpjb, Bool.true_and] at hsk
  simp only [Bool.or_eq_false_iff, beq_eq_false_iff_ne] at hsk
  exact ⟨hsk.1.1.1, hsk.1.1.2, hsk.1.2, hsk.2⟩

theorem scan_linkOk_last (st : LState) (fromIt : LPI) (j lastId itId : Nat) (d : Int)
    (hW : WFR st)
    (hedge : nxt (ringOf st j) lastId = some itId)
    (hsk : scanSkip st fromIt j lastId itId = false) :
    linkOkB st ⟨fromIt, ⟨j, lastId⟩, d⟩ = true := by
  obtain ⟨hndr, hbnd⟩ := wfr_ring hW j
  apply linkOk_of_neq
  · intro hpj
    exact (scanSkip_false_elim st fromIt j lastId itId hpj hsk).1
  · intro hpj hc
    exact (scanSkip_false_elim st fromIt j lastId itId hpj hsk).2.2.2
      (congrArg LPI.node hc)
  · intro hpj hc
    obtain ⟨hs1, hs2, hs3, hs4⟩ := scanSkip_false_elim st fromIt j lastId itId hpj hsk
    have hrw : ringOf st fromIt.poly = ringOf st j := by rw [hpj]
    unfold prevIt at hc
    rw [hrw] at hc
    cases hp : prv (ringOf st j) fromIt.node with
    | none =>
      rw [hp] at hc
      exact hs1 (congrArg LPI.node hc)
    | some y =>
      rw [hp] at hc
      have hy : y = lastId := congrArg LPI.node hc
      subst hy
      have hmem : fromIt.node ∈ ringIds (ringOf st j) := by
        by_contra hnm
        rw [prv_not_mem hnm] at hp
        exact Option.noConfusion hp
      have hnl := prv_nxt hndr hmem hp
      rw [hedge] at hnl
      exact hs2 (Option.some_inj.1 hnl).symm

theorem scan_linkOk_it (st : LState) (fromIt : LPI) (j lastId itId : Nat) (d : Int)
    (hW : WFR st)
    (hedge : nxt (ringOf st j) lastId = some itId)
    (hsk : scanSkip st fromIt j lastId itId = false) :
    linkOkB st ⟨fromIt, ⟨j, itId⟩, d⟩ = true := by
  obtain ⟨hndr, hbnd⟩ := wfr_ring hW j
  apply linkOk_of_neq
  · intro hpj
    exact (scanSkip_false_elim st fromIt j lastId itId hpj hsk).2.1
  · intro hpj hc
    obtain ⟨hs1, hs2, hs3, hs4⟩ := scanSkip_false_elim st fromIt j lastId itId hpj hsk
    have hrw : ringOf st fromIt.poly = ringOf st j := by rw [hpj]
    unfold nextIt at hc
    rw [hrw] at hc
    cases hn : nxt (ringOf st j) fromIt.node with
    | none =>
      rw [hn] at hc
      exact hs2 (congrArg LPI.node hc)
    | some y =>
      rw [hn] at hc
      have hy : y = itId := congrArg LPI.node hc
      subst hy
      exact hs1 (nxt_inj hndr hn hedge)
  · intro hpj hc
    exact (scanSkip_false_elim st fromIt j lastId itId hpj hsk).2.2.1
      (congrArg LPI.node hc)

theorem scan_linkOk_fresh (st : LState) (fromIt : LPI) (j lastId itId : Nat)
    (p : Pt) (d : Int)
    (hW : WFR st) (hfrom : fromIt.node < st.fresh)
    (hedge : nxt (ringOf st j) lastId = some itId)
    (hsk : scanSkip st fromIt j lastId itId = false) :
    linkOkB (insertNode st j itId p).1 ⟨fromIt, ⟨j, st.fresh⟩, d⟩ = true := by
  obtain ⟨hndr, hbnd⟩ := wfr_ring hW j
  have hitmem : itId ∈ ringIds (ringOf st j) := nxt_mem_right hedge
  have hfr : (⟨st.fresh, p⟩ : Node).nid ∉ ringIds (ringOf st j) := fun hc =>
    absurd (hbnd _ hc) (by simp)
  apply linkOk_of_neq
  · intro hpj
    omega
  · intro hpj hc
    obtain ⟨hs1, hs2, hs3, hs4⟩ := scanSkip_false_elim st fromIt j lastId itId hpj hsk
    have hro : ringOf (insertNode st j itId p).1 fromIt.poly
        = ringInsertBefore (ringOf st j) itId ⟨st.fresh, p⟩ := by
      rw [hpj, ringOf_insertNode_self]
    unfold nextIt at hc
    rw [hro] at hc
    cases hnx : nxt (ringInsertBefore (ringOf st j) itId ⟨st.fresh, p⟩) fromIt.node with
    | none =>
      rw [hnx] at hc
      exact absurd (congrArg LPI.node hc) (by show fromIt.node ≠ st.fresh; omega)
    | some y =>
      rw [hnx] at hc
      have hy : y = st.fresh := congrArg LPI.node hc
      subst hy
      rw [nxt_insert _ itId ⟨st.fresh, p⟩ hitmem hfr hndr fromIt.node
        (fun hcc => by rw [hcc] at hfrom; simp at hfrom)] at hnx
      by_cases hif : nxt (ringOf st j) fromIt.node = some itId
      · rw [if_pos hif] at hnx
        exact hs1 (nxt_inj hndr hif hedge)
      · rw [if_neg hif] at hnx
        exact absurd (hbnd _ (nxt_mem_right hnx)) (lt_irrefl _)
  · intro hpj hc
    obtain ⟨hs1, hs2, hs3, hs4⟩ := scanSkip_false_elim st fromIt j lastId itId hpj hsk
    have hro : ringOf (insertNode st j itId p).1 fromIt.poly
        = ringInsertBefore (ringOf st j) itId ⟨st.fresh, p⟩ := by
      rw [hpj, ringOf_insertNode_self]
    unfold prevIt at hc
    rw [hro] at hc
    cases hnx : prv (ringInsertBefore (ringOf st j) itId ⟨st.fresh, p⟩) fromIt.node with
    | none =>
      rw [hnx] at hc
      exact absurd (congrArg LPI.node hc) (by show fromIt.node ≠ st.fresh; omega)
    | some y =>
      rw [hnx] at hc
      have hy : y = st.fresh := congrArg LPI.node hc
      subst hy
      rw [prv_insert _ itId ⟨st.fresh, p⟩ hitmem hfr hndr fromIt.node
        (fun hcc => by rw [hcc] at hfrom; simp at hfrom)] at hnx
      rw [if_neg hs2] at hnx
      have hmem : fromIt.node ∈ ringIds (ringOf st j) := by
        by_contra hnm
        rw [prv_not_mem hnm] at hnx
        exact Option.noConfusion hnx
      have hnl := prv_nxt hndr hmem hnx
      exact absurd (hbnd _ (nxt_mem_left hnl)) (lt_irrefl _)

theorem scanSegs_c9 (W : Int) (fromIt : LPI) (j : Nat) :
    ∀ (tv : List Nat) (st : LState) (lastId : Nat),
      C9Inv st → fromIt.node < st.fresh → tv.Nodup →
      ChainR (ringOf st j) tv →
      (∀ itId rest, tv = itId :: rest →
        nxt (ringOf st j) lastId = some itId ∨ scanSkip st fromIt j lastId itId = true) →
      C9Inv (scanSegs W fromIt j st lastId tv) ∧
        st.fresh ≤ (scanSegs W fromIt j st lastId tv).fresh := by
  intro tv
  induction tv with
  | nil =>
    intro st lastId hInv _ _ _ _
    exact ⟨hInv, le_rfl⟩
  | cons itId rest ih =>
    intro st lastId hInv hfrom hndv hch hhead
    have hndrest : rest.Nodup := (List.nodup_cons.1 hndv).2
    have hnotin : itId ∉ rest := (List.nodup_cons.1 hndv).1
    have hchtail : ChainR (ringOf st j) rest := by
      cases rest with
      | nil => exact chainR_nil _
      | cons y ys => exact ((chainR_cons_cons _ _ _ _).1 hch).2
    have hchedge : ∀ it2 r2, rest = it2 :: r2 → nxt (ringOf st j) itId = some it2 := by
      intro it2 r2 hr2
      subst hr2
      exact ((chainR_cons_cons _ _ _ _).1 hch).1
    have hrec_same : ∀ st' : LState, st'.rings = st.rings → st'.fresh = st.fresh →
        C9Inv st' →
        C9Inv (scanSegs W fromIt j st' itId rest) ∧
          st.fresh ≤ (scanSegs W fromIt j st' itId rest).fresh := by
      intro st' hr hf hI
      have hro : ringOf st' j = ringOf st j := by
        unfold ringOf
        rw [hr]
      obtain ⟨hI2, hle⟩ := ih st' itId hI (by rw [hf]; exact hfrom) hndrest
        (by rw [hro]; exact hchtail)
        (by intro it2 r2 hr2; rw [hro]; exact Or.inl (hchedge it2 r2 hr2))
      exact ⟨hI2, by rw [← hf]; exact hle⟩
    simp only [scanSegs]
    by_cases hskip : scanSkip st fromIt j lastId itId = true
    · rw [if_pos hskip]
      exact hrec_same st rfl rfl hInv
    · have hskf : scanSkip st fromIt j lastId itId = false := by
        cases hres : scanSkip st fromIt j lastId itId
        · rfl
        · exact absurd hres hskip
      rw [if_neg hskip]
      have hedge : nxt (ringOf st j) lastId = some itId := by
        rcases hhead itId rest rfl with h | h
        · exact h
        · exact absurd h hskip
      obtain ⟨hndr, hbnd⟩ := wfr_ring hInv.1 j
      have hlastlt : lastId < st.fresh := hbnd _ (nxt_mem_left hedge)
      have hitlt : itId < st.fresh := hbnd _ (nxt_mem_right hedge)
      split
      · exact hrec_same st rfl rfl hInv
      · split
        · exact hrec_same _ (addProximityLink_rings _ _ _ _)
            (addProximityLink_fresh _ _ _ _)
            (addPL_c9 st fromIt ⟨j, lastId⟩ _
              (scan_linkOk_last st fromIt j lastId itId _ hInv.1 hedge hskf)
              hfrom hlastlt hInv)
        · split
          · exact hrec_same _ (addProximityLink_rings _ _ _ _)
              (addProximityLink_fresh _ _ _ _)
              (addPL_c9 st fromIt ⟨j, itId⟩ _
                (scan_linkOk_it st fromIt j lastId itId _ hInv.1 hedge hskf)
                hfrom hitlt hInv)
          · rw [insertNode_snd]
            have hIins := insertNode_c9 st j itId
              (getClosestOnLineSegment (nodePt st fromIt)
                (ptOfId (ringOf st j) lastId) (ptOfId (ringOf st j) itId)) hInv
            have hfr1 := insertNode_fst_fresh st j itId
              (getClosestOnLineSegment (nodePt st fromIt)
                (ptOfId (ringOf st j) lastId) (ptOfId (ringOf st j) itId))
            have hok := scan_linkOk_fresh st fromIt j lastId itId
              (getClosestOnLineSegment (nodePt st fromIt)
                (ptOfId (ringOf st j) lastId) (ptOfId (ringOf st j) itId))
              (intSqrt (vSize2 (getClosestOnLineSegment (nodePt st fromIt)
                (ptOfId (ringOf st j) lastId) (ptOfId (ringOf st j) itId) - nodePt st fromIt)))
              hInv.1 hfrom hedge hskf
            have hI1 := addPL_c9 _ fromIt ⟨j, st.fresh⟩ _ hok
              (by rw [hfr1]; omega)
              (by rw [hfr1]; show st.fresh < st.fresh + 1; omega) hIins
            have hro1 : ringOf (addProximityLink (insertNode st j itId
                (getClosestOnLineSegment (nodePt st fromIt)
                  (ptOfId (ringOf st j) lastId) (ptOfId (ringOf st j) itId))).1 fromIt
                ⟨j, st.fresh⟩ (intSqrt (vSize2 (getClosestOnLineSegment (nodePt st fromIt)
                  (ptOfId (ringOf st j) lastId) (ptOfId (ringOf st j) itId) - nodePt st fromIt)))) j
                = ringInsertBefore (ringOf st j) itId
                    ⟨st.fresh, getClosestOnLineSegment (nodePt st fromIt)
                      (ptOfId (ringOf st j) lastId) (ptOfId (ringOf st j) itId)⟩ := by
              have h1 : ∀ k, ringOf (addProximityLink (insertNode st j itId
                  (getClosestOnLineSegment (nodePt st fromIt)
                    (ptOfId (ringOf st j) lastId) (ptOfId (ringOf st j) itId))).1 fromIt
                  ⟨j, st.fresh⟩ (intSqrt (vSize2 (getClosestOnLineSegment (nodePt st fromIt)
                    (ptOfId (ringOf st j) lastId) (ptOfId (ringOf st j) itId) - nodePt st fromIt)))) k
                  = ringOf (insertNode st j itId
                      (getClosestOnLineSegment (nodePt st fromIt)
                        (ptOfId (ringOf st j) lastId) (ptOfId (ringOf st j) itId))).1 k := by
                intro k
                unfold ringOf
                rw [addProximityLink_rings]
              rw [h1 j, ringOf_insertNode_self]
            have hfrnot : (⟨st.fresh, getClosestOnLineSegment (nodePt st fromIt)
                (ptOfId (ringOf st j) lastId) (ptOfId (ringOf st j) itId)⟩ : Node).nid
                ∉ ringIds (ringOf st j) := fun hc => absurd (hbnd _ hc) (by simp)
            have hch' := chainR_insert_avoid (ringOf st j) itId
              ⟨st.fresh, getClosestOnLineSegment (nodePt st fromIt)
                (ptOfId (ringOf st j) lastId) (ptOfId (ringOf st j) itId)⟩
              (nxt_mem_right hedge) hfrnot hndr rest itId hch hnotin
            have hfr2 : (addProximityLink (insertNode st j itId
                (getClosestOnLineSegment (nodePt st fromIt)
                  (ptOfId (ringOf st j) lastId) (ptOfId (ringOf st j) itId))).1 fromIt
                ⟨j, st.fresh⟩ (intSqrt (vSize2 (getClosestOnLineSegment (nodePt st fromIt)
                  (ptOfId (ringOf st j) lastId) (ptOfId (ringOf st j) itId) - nodePt st fromIt)))).fresh
                = st.fresh + 1 := by
              rw [addProximityLink_fresh, hfr1]
            obtain ⟨hI2, hle⟩ := ih _ itId hI1 (by rw [hfr2]; omega) hndrest
              (by
                rw [hro1]
                cases rest with
                | nil => exact chainR_nil _
                | cons y ys => exact ((chainR_cons_cons _ _ _ _).1 hch').2)
              (by
                intro it2 r2 hr2
                rw [hro1]
                subst hr2
                exact Or.inl ((chainR_cons_cons _ _ _ _).1 hch').1)
            refine ⟨hI2, ?_⟩
            calc st.fresh ≤ st.fresh + 1 := Nat.le_succ _
              _ ≤ _ := by rw [← hfr2]; exact hle

theorem headId_of_ringIds_cons {r : Ring} {itId : Nat} {rest : List Nat}
    (h : ringIds r = itId :: rest) : ((r.head?).map Node.nid) = some itId := by
  cases r with
  | nil => simp [ringIds] at h
  | cons n r2 =>
    rw [ringIds_cons] at h
    injection h with h1 h2
    simp [h1]

theorem scanFrom_c9 (W : Int) (st : LState) (fromIt : LPI) (j : Nat) (b : Bool)
    (hInv : C9Inv st) (hfrom : fromIt.node < st.fresh)
    (hself : b = true → fromIt.poly = j) :
    C9Inv (scanFrom W st fromIt j b) ∧ st.fresh ≤ (scanFrom W st fromIt j b).fresh := by
  unfold scanFrom
  dsimp only
  cases hL : ((ringOf st j).getLast?).map Node.nid with
  | none => exact ⟨hInv, le_rfl⟩
  | some lastId =>
    obtain ⟨hndr, hbnd⟩ := wfr_ring hInv.1 j
    show C9Inv (scanSegs W fromIt j st lastId
        (if b = true then idsFrom (ringOf st j) fromIt.node else ringIds (ringOf st j))) ∧
      st.fresh ≤ (scanSegs W fromIt j st lastId
        (if b = true then idsFrom (ringOf st j) fromIt.node else ringIds (ringOf st j))).fresh
    cases b with
    | false =>
      simp only [Bool.false_eq_true, if_false]
      refine scanSegs_c9 W fromIt j (ringIds (ringOf st j)) st lastId hInv hfrom hndr
        (chainR_suffix (ringOf st j) hndr (ringOf st j) [] rfl) ?_
      intro itId rest hr2
      exact Or.inl (nxt_last_head (ringOf st j) hndr lastId itId hL
        (headId_of_ringIds_cons hr2))
    | true =>
      simp only [if_true]
      rcases idsFrom_cases (ringOf st j) fromIt.node with hids | ⟨k, rest, hids, hdrop⟩
      · rw [hids]
        exact ⟨hInv, le_rfl⟩
      · rw [hids, hdrop]
        have hndtv : (fromIt.node :: rest).Nodup := by
          rw [← hdrop]
          exact List.Nodup.sublist (List.drop_sublist k (ringIds (ringOf st j))) hndr
        have hchtv : ChainR (ringOf st j) (fromIt.node :: rest) := by
          rw [← hdrop, ← ringIds_drop]
          exact chainR_suffix (ringOf st j) hndr ((ringOf st j).drop k)
            ((ringOf st j).take k) (by rw [List.take_append_drop])
        refine scanSegs_c9 W fromIt j (fromIt.node :: rest) st lastId hInv hfrom
          hndtv hchtv ?_
        intro itId r2 heq
        right
        have hit : fromIt.node = itId := by
          injection heq with hh _
        have h1 : (fromIt.poly == j) = true := beq_iff_eq.2 (hself rfl)
        have h2 : (fromIt.node == itId) = true := beq_iff_eq.2 hit
        rw [scanSkip, h1, h2]
        simp

theorem scanPolyPairCross_c9 (W : Int) (i j : Nat) (st : LState) (hInv : C9Inv st) :
    C9Inv (scanPolyPairCross W i j st) ∧ st.fresh ≤ (scanPolyPairCross W i j st).fresh := by
  unfold scanPolyPairCross
  refine foldl_inv_mem (fun s => C9Inv s ∧ st.fresh ≤ s.fresh) _ _ _ ⟨hInv, le_rfl⟩ ?_
  intro s vid hv hP
  show C9Inv (scanFrom W s ⟨i, vid⟩ j false) ∧ st.fresh ≤ (scanFrom W s ⟨i, vid⟩ j false).fresh
  have hvlt : vid < st.fresh := (wfr_ring hInv.1 i).2 _ hv
  obtain ⟨h1, h2⟩ := scanFrom_c9 W s ⟨i, vid⟩ j false hP.1
    (lt_of_lt_of_le hvlt hP.2) (fun hc => absurd hc Bool.false_ne_true)
  exact ⟨h1, le_trans hP.2 h2⟩

theorem scanPolySelf_c9 (W : Int) (i : Nat) :
    ∀ (fuel : Nat) (st : LState) (cur : Option Nat),
      C9Inv st → (∀ v, cur = some v → v < st.fresh) →
      C9Inv (scanPolySelf W i st cur fuel) ∧
        st.fresh ≤ (scanPolySelf W i st cur fuel).fresh := by
  intro fuel
  induction fuel with
  | zero =>
    intro st cur hInv _
    cases cur <;> exact ⟨hInv, le_rfl⟩
  | succ n ih =>
    intro st cur hInv hcur
    cases cur with
    | none => exact ⟨hInv, le_rfl⟩
    | some vid =>
      simp only [scanPolySelf]
      obtain ⟨h1, h2⟩ := scanFrom_c9 W st ⟨i, vid⟩ i true hInv (hcur vid rfl) (fun _ => rfl)
      obtain ⟨h3, h4⟩ := ih (scanFrom W st ⟨i, vid⟩ i true)
        (nextInList (ringOf (scanFrom W st ⟨i, vid⟩ i true) i) vid) h1 (by
        intro v hv
        exact (wfr_ring h1.1 i).2 _ (nextInList_mem hv))
      exact ⟨h3, le_trans h2 h4⟩

theorem findProximatePointsAll_c9 (W : Int) (st : LState) (fuel : Nat) (hInv : C9Inv st) :
    C9Inv (findProximatePointsAll W st fuel) ∧
      st.fresh ≤ (findProximatePointsAll W st fuel).fresh := by
  unfold findProximatePointsAll
  refine foldl_inv (fun s => C9Inv s ∧ st.fresh ≤ s.fresh) _ _ _ ⟨hInv, le_rfl⟩ ?_
  intro a i hP
  refine foldl_inv (fun s2 => C9Inv s2 ∧ st.fresh ≤ s2.fresh) _ _ _ hP ?_
  intro a2 j hP2
  by_cases hij : (j == i) = true
  · simp only [hij, if_true]
    obtain ⟨h1, h2⟩ := scanPolySelf_c9 W i fuel a2 (((ringOf a2 i).head?).map Node.nid)
      hP2.1 (by
        intro v hv
        exact (wfr_ring hP2.1.1 i).2 _ (headId_mem hv))
    exact ⟨h1, le_trans hP2.2 h2⟩
  · have hf : (j == i) = false := by simpa using hij
    simp only [hf, Bool.false_eq_true, if_false]
    obtain ⟨h1, h2⟩ := scanPolyPairCross_c9 W i j a2 hP2.1
    exact ⟨h1, le_trans hP2.2 h2⟩

theorem addProximityEndingCore_c9 (W : Int) (st : LState) (link : Link)
    (a2It b2It aAfter bAfter : LPI) (d0 : Int) (h : C9Inv st) :
    C9Inv (addProximityEndingCore W st link a2It b2It aAfter bAfter d0) := by
  dsimp only [addProximityEndingCore]
  split
  case isTrue hcl =>
    split
    case isTrue h1 =>
      dsimp only
      split
      · exact addPLE_c9 _ _ _ _ (insertNode_c9 _ _ _ _
          (insertNode_c9 _ _ _ _ (addPLE_c9 _ _ _ _ (insertNode_c9 _ _ _ _ h))))
      · split
        · exact addPLE_c9 _ _ _ _ (addPLE_c9 _ _ _ _ (insertNode_c9 _ _ _ _ h))
        · exact addPLE_c9 _ _ _ _ (insertNode_c9 _ _ _ _ h)
    case isFalse h1 =>
      split
      case isTrue h2 =>
        dsimp only
        split
        · exact addPLE_c9 _ _ _ _ (insertNode_c9 _ _ _ _
            (insertNode_c9 _ _ _ _ (addPLE_c9 _ _ _ _ (insertNode_c9 _ _ _ _ h))))
        · split
          · exact addPLE_c9 _ _ _ _ (addPLE_c9 _ _ _ _ (insertNode_c9 _ _ _ _ h))
          · exact addPLE_c9 _ _ _ _ (insertNode_c9 _ _ _ _ h)
      case isFalse h2 =>
        dsimp only
        split
        · exact addPLE_c9 _ _ _ _ (insertNode_c9 _ _ _ _
            (insertNode_c9 _ _ _ _ (addPLE_c9 _ _ _ _ h)))
        · split
          · exact addPLE_c9 _ _ _ _ (addPLE_c9 _ _ _ _ h)
          · exact addPLE_c9 _ _ _ _ h
  case isFalse hcl =>
    dsimp only
    split
    · exact addPLE_c9 _ _ _ _ (insertNode_c9 _ _ _ _ (insertNode_c9 _ _ _ _ h))
    · split
      · exact addPLE_c9 _ _ _ _ h
      · exact h

theorem addProximityEnding_c9 (W : Int) (st : LState) (link : Link)
    (a2It b2It aAfter bAfter : LPI) (h : C9Inv st) :
    C9Inv (addProximityEnding W st link a2It b2It aAfter bAfter) := by
  unfold addProximityEnding
  split
  · dsimp only
    split
    · exact h
    · exact addProximityEndingCore_c9 W st link a2It b2It aAfter bAfter _ h
  · exact h

theorem addProximityEndings_c9 (W : Int) (st : LState) (h : C9Inv st) :
    C9Inv (addProximityEndings W st) := by
  unfold addProximityEndings
  apply foldl_inv C9Inv _ _ st h
  intro a link ha
  by_cases hd : (link.dist == W) = true
  · simp only [hd, if_true]
    exact ha
  · have hf : (link.dist == W) = false := by simpa using hd
    simp only [hf, Bool.false_eq_true, if_false]
    exact addProximityEnding_c9 _ _ _ _ _ _ _ (addProximityEnding_c9 _ _ _ _ _ _ _ ha)

theorem initState_c9 (polys : List (List Pt)) : C9Inv (initState polys) := by
  constructor
  · intro r hr
    have hP := foldl_inv (fun acc : List Ring × Nat =>
        ∀ r0 ∈ acc.1, (ringIds r0).Nodup ∧ ∀ id ∈ ringIds r0, id < acc.2)
      (fun acc poly =>
        (acc.1 ++ [(poly.foldl (fun (acc2 : Ring × Nat) p =>
            (acc2.1 ++ [(⟨acc2.2, p⟩ : Node)], acc2.2 + 1)) ([], acc.2)).1],
         (poly.foldl (fun (acc2 : Ring × Nat) p =>
            (acc2.1 ++ [(⟨acc2.2, p⟩ : Node)], acc2.2 + 1)) ([], acc.2)).2))
      polys ([], 0)
      (by intro r0 hr0; simp at hr0)
      (by
        intro a poly ha
        intro r0 hr0
        have hR := foldl_inv (fun acc2 : Ring × Nat =>
            a.2 ≤ acc2.2 ∧ (ringIds acc2.1).Nodup ∧ ∀ id ∈ ringIds acc2.1, id < acc2.2)
          (fun acc2 p => (acc2.1 ++ [(⟨acc2.2, p⟩ : Node)], acc2.2 + 1)) poly ([], a.2)
          ⟨le_rfl, by simp [ringIds], by intro id hid; simp [ringIds] at hid⟩
          (by
            intro b p hb
            obtain ⟨hb1, hb2, hb3⟩ := hb
            refine ⟨Nat.le_succ_of_le hb1, ?_, ?_⟩
            · show (ringIds (b.1 ++ [(⟨b.2, p⟩ : Node)])).Nodup
              rw [ringIds_append, List.nodup_append]
              refine ⟨hb2, by simp [ringIds], ?_⟩
              intro x hx hx2
              have hxx : x = b.2 := by simpa [ringIds] using hx2
              exact absurd (hb3 x hx) (by omega)
            · intro id hid
              rw [ringIds_append] at hid
              rcases List.mem_append.1 hid with hh | hh
              · exact Nat.lt_succ_of_lt (hb3 id hh)
              · have hxx : id = b.2 := by simpa [ringIds] using hh
                show id < b.2 + 1
                omega)
        rcases List.mem_append.1 hr0 with hold | hnew
        · obtain ⟨h1, h2⟩ := ha r0 hold
          exact ⟨h1, fun id hid => lt_of_lt_of_le (h2 id hid) hR.1⟩
        · have hr0' : r0 = (poly.foldl (fun (acc2 : Ring × Nat) p =>
              (acc2.1 ++ [(⟨acc2.2, p⟩ : Node)], acc2.2 + 1)) ([], a.2)).1 := by
            simpa using hnew
          rw [hr0']
          exact ⟨hR.2.1, hR.2.2⟩)
    exact hP r hr
  · intro l hl
    exact absurd hl (List.not_mem_nil l)

/-- C9 (amended): after construction, every link of the primary link set
joins two distinct nodes that are not ring neighbours; the C9 sentence is
wrong only for the endings set, where the equal-clamp branch can link a
node with itself. -/
theorem c9_amended (polys : List (List Pt)) (W : Int) (fuel : Nat) :
    ((buildLinker polys W fuel).links.all
      (fun l => linkOkB (buildLinker polys W fuel) l)) = true := by
  rw [List.all_eq_true]
  intro l hl
  have hInv : C9Inv (buildLinker polys W fuel) := by
    unfold buildLinker
    exact addProximityEndings_c9 _ _
      (findProximatePointsAll_c9 W (initState polys) fuel (initState_c9 polys)).1
  exact (hInv.2 l hl).1

end CuraModel
